import Mathlib

/-
Verification development for the plain-text configuration backend
(sipsimple/configuration/backend/file.py).

The Python module is shallowly embedded as follows:
- Python strings are Lean `String` (a list of unicode code points); the
  character-level tokenizer works on `List Char`, mirroring the deque of
  characters used by the source.
- Python `str.isspace` is applied by the source to decoded unicode text,
  so `pyIsSpace` carries the full CPython whitespace table: the ASCII
  whitespace characters, the four information separators U+1C-U+1F, NEL,
  NBSP and the Unicode space, line and paragraph separators. Only the six
  ASCII whitespace characters are also in the escape class, a mismatch
  the round-trip theorems must therefore hypothesise away.
- A Python `dict` is an association list `List (String × Value)` that keeps
  insertion order; assignment into a dict is `dinsert`, which overwrites in
  place when the key exists and appends otherwise, exactly like Python.
- The value tree of the IConfigurationBackend contract is the inductive
  `Value`: `absent` models Python `None`, `str` a scalar string, `vlist` a
  list of strings, `map` a nested dict, and `other` stands for a Python
  object of any unsupported type (only relevant to the save error path).
- Exceptions become `Except`; the I/O surface of load/save is modelled by
  the `OpenResult` argument of `load` and the effect list returned by
  `save`, since actual file-system behaviour is outside the embedding.
- Recursions that Python performs by unbounded recursion or mutation are
  given fuel (`buildGroupF`, `parseValuesF`); the exported wrappers
  (`_build_group`, `parse_values`) compute sufficient fuel, and fuel
  irrelevance is proved where theorems need it.
-/

/-- Python str.isspace on the decoded unicode text the source reads: true
exactly for the code points of the CPython whitespace table (ASCII
whitespace, the information separators U+1C-U+1F, NEL U+85, NBSP U+A0 and
the Unicode space, line and paragraph separators). -/
def pyIsSpace (c : Char) : Bool :=
  decide (c.toNat ∈ [0x09, 0x0A, 0x0B, 0x0C, 0x0D, 0x1C, 0x1D, 0x1E, 0x1F, 0x20,
    0x85, 0xA0, 0x1680, 0x180E, 0x2000, 0x2001, 0x2002, 0x2003, 0x2004, 0x2005,
    0x2006, 0x2007, 0x2008, 0x2009, 0x200A, 0x2028, 0x2029, 0x202F, 0x205F, 0x3000])

/-- Python str.rstrip with no argument: drop trailing whitespace. -/
def rstrip (l : List Char) : List Char :=
  (l.reverse.dropWhile pyIsSpace).reverse

/-- The single-quote character, written via its code point. -/
def squote : Char := Char.ofNat 39

/-- Values stored by the backend: Python None, str, list of str, dict, or a
value of any other type (which only the save path ever inspects). -/
inductive Value where
  | absent
  | str (s : String)
  | vlist (l : List String)
  | map (m : List (String × Value))
  | other (typeName : String)

/-- A Python dict from setting/section names to values, in insertion order. -/
abbrev Entries := List (String × Value)

/-- The keys of a dict, in order. -/
def keysE (m : Entries) : List String := m.map (fun e => e.1)

/-- Python dict item lookup. -/
def lookupE : Entries → String → Option Value
  | [], _ => none
  | (k, v) :: r, q => if k = q then some v else lookupE r q

/-- Python `key in dict`. -/
def keyMem (m : Entries) (k : String) : Bool := m.any (fun e => e.1 = k)

/-- Python dict assignment: overwrite the entry holding the key (keeping
its position) when the key is present, append a new entry otherwise. A
dict has at most one entry per key, so replacing the first occurrence
models the assignment exactly. -/
def dinsert (m : Entries) (k : String) (v : Value) : Entries :=
  match m with
  | [] => [(k, v)]
  | (k1, v1) :: rest => if k1 = k then (k, v) :: rest else (k1, v1) :: dinsert rest k v

/-- The causes of FileParserError raised by FileBackend._parse_line. -/
inductive ParseErrorKind where
  | unexpectedBackslash
  | missingQuote
  | expectedSeparator
  | missingName
  | unexpectedAfterColon
  | unexpectedAfterValue
deriving DecidableEq, Repr

/-- FileParserError: a parse failure carrying the 1-based line number. -/
structure FileParserError where
  lineno : Nat
  kind : ParseErrorKind
deriving DecidableEq, Repr

/-- FileBuilderError: save met a value that is not None, dict, list or str;
carries the offending type name. -/
structure FileBuilderError where
  gotType : String
deriving DecidableEq, Repr

/-- ConfigurationBackendError and its two subclasses used by this module. -/
inductive ConfigurationBackendError where
  | ioError (msg : String)
  | parser (e : FileParserError)
  | builder (e : FileBuilderError)
deriving DecidableEq, Repr

/-- FileBackend.escape_characters_re: the class of characters that force
quoting, namely comma, double quote, single quote, equals, colon, space,
hash, backslash, tab, vertical tab, form feed, newline, carriage return. -/
def escape_characters (c : Char) : Bool :=
  c = ',' || c = '"' || c = squote || c = '=' || c = ':' || c = ' ' || c = '#' ||
  c = '\\' || c = '\t' || c = '\x0b' || c = '\x0c' || c = '\n' || c = '\r'

/-- One character of the quoted form produced by FileBackend._escape: the
chained str.replace calls double a backslash and backslash-escape double
quote, newline and carriage return; every other character is kept. -/
def escapeChar (c : Char) : List Char :=
  if c = '\\' then ['\\', '\\']
  else if c = '"' then ['\\', '"']
  else if c = '\n' then ['\\', 'n']
  else if c = '\r' then ['\\', 'r']
  else [c]

/-- FileBackend._escape. -/
def _escape (value : String) : String :=
  if value = "" then "\"\""
  else if value.data.any escape_characters then
    "\"" ++ String.mk ((value.data.map escapeChar).flatten) ++ "\""
  else value

/-- Every whitespace character of the string lies in the escape class,
that is, among the six ASCII whitespace characters the escape regex
covers. A string containing any other unicode whitespace (such as U+00A0)
is written unquoted by _escape and yet split at that character by the
tokenizer on load, so it does not survive a round trip. -/
def spacesEscapable (s : String) : Bool :=
  s.data.all (fun c => !(pyIsSpace c) || escape_characters c)

/-- The token_iterator generator inside FileBackend._parse_line, with the
line as a list of characters and the quoting state made explicit. It
returns the token's characters together with the unconsumed remainder of
the line: stopping at an unquoted delimiter leaves the delimiter in the
remainder, stopping at unquoted whitespace consumes it, and an unquoted
hash discards the rest of the line. -/
def token_iterator (delimiter : List Char) : List Char → Option Char → Except ParseErrorKind (List Char × List Char)
  | [], quote_char =>
    if quote_char.isSome then .error .missingQuote else .ok ([], [])
  | c :: rest, quote_char =>
    if quote_char = none ∧ c ∈ delimiter then .ok ([], c :: rest)
    else if c = squote ∨ c = '"' then
      match quote_char with
      | none => token_iterator delimiter rest (some c)
      | some q =>
        if q = c then token_iterator delimiter rest none
        else (token_iterator delimiter rest quote_char).map (fun r => (c :: r.1, r.2))
    else if c = '\\' then
      match rest with
      | [] => .error .unexpectedBackslash
      | d :: rest2 =>
        let e := if d = 'n' then '\n' else if d = 'r' then '\r' else d
        (token_iterator delimiter rest2 quote_char).map (fun r => (e :: r.1, r.2))
    else if quote_char = none ∧ c = '#' then .ok ([], [])
    else if quote_char = none ∧ pyIsSpace c then .ok ([], rest)
    else (token_iterator delimiter rest quote_char).map (fun r => (c :: r.1, r.2))

/-- The advance_to_next_token helper inside FileBackend._parse_line: skip
leading whitespace counting the skipped characters, then blank the whole
line if a hash follows. -/
def advance_to_next_token : List Char → Nat × List Char
  | [] => (0, [])
  | c :: rest =>
    if pyIsSpace c then
      let r := advance_to_next_token rest
      (r.1 + 1, r.2)
    else if c = '#' then (0, [])
    else (0, c :: rest)

/-- The value of a parsed line: no value at all, one scalar string, or a
list of strings. -/
inductive LineValue where
  | absent
  | scalar (s : String)
  | list (l : List String)
deriving DecidableEq, Repr

/-- The Line record produced by FileBackend._parse_line. A line with no
name is a blank or comment-only line and is ignored by load. -/
structure Line where
  indentation : Nat
  name : Option String
  separator : Option Char
  value : LineValue
deriving DecidableEq, Repr

/-- The value-reading loop of FileBackend._parse_line (the while over
comma-separated tokens), with explicit fuel. Each iteration that continues
consumes at least one character, so any fuel exceeding the line length
makes the zero-fuel branch unreachable. -/
def parseValuesF : Nat → List Char → Option (List String) → Except ParseErrorKind LineValue
  | 0, _, _ => .ok (.scalar "")
  | fuel + 1, line, value_list =>
    match token_iterator [','] line none with
    | .error e => .error e
    | .ok (tok, rest1) =>
      let value := String.mk tok
      let rest2 := (advance_to_next_token rest1).2
      match rest2 with
      | [] =>
        .ok (match value_list with
             | some l => .list (l ++ [value])
             | none => .scalar value)
      | c :: rest3 =>
        if c = ',' then
          let rest4 := (advance_to_next_token rest3).2
          let vl := value_list.getD [] ++ [value]
          if rest4.isEmpty then .ok (.list vl)
          else parseValuesF fuel rest4 (some vl)
        else .error .unexpectedAfterValue

/-- The value-reading loop with sufficient fuel. -/
def parse_values (line : List Char) (value_list : Option (List String)) : Except ParseErrorKind LineValue :=
  parseValuesF (line.length + 1) line value_list

/-- The part of FileBackend._parse_line that follows the initial
indentation count, on a line known not to be blank: read the name token,
the separator, and the optional value. Only the indentation (already
consumed) is missing from its result. -/
def parse_line_rest (l1 : List Char) (lineno : Nat) : Except FileParserError (String × Char × LineValue) :=
  match token_iterator [':', '='] l1 none with
  | .error k => .error ⟨lineno, k⟩
  | .ok (nameTok, r1) =>
    let name := String.mk nameTok
    let r2 := (advance_to_next_token r1).2
    match r2 with
    | [] => .error ⟨lineno, .expectedSeparator⟩
    | sep :: r3 =>
      if ¬ (sep = ':' ∨ sep = '=') then .error ⟨lineno, .expectedSeparator⟩
      else if name = "" then .error ⟨lineno, .missingName⟩
      else
        let r4 := (advance_to_next_token r3).2
        if r4.isEmpty then .ok ⟨name, sep, .absent⟩
        else if sep = ':' then .error ⟨lineno, .unexpectedAfterColon⟩
        else
          match parse_values r4 none with
          | .error k => .error ⟨lineno, k⟩
          | .ok v => .ok ⟨name, sep, v⟩

/-- FileBackend._parse_line: tokenize one line (with its 1-based number).
A blank or comment-only line yields a nameless Line record. -/
def _parse_line (line : String) (lineno : Nat) : Except FileParserError Line :=
  let l0 := rstrip line.data
  let a := advance_to_next_token l0
  if a.2.isEmpty then .ok ⟨a.1, none, none, .absent⟩
  else
    match parse_line_rest a.2 lineno with
    | .error e => .error e
    | .ok r => .ok ⟨a.1, some r.1, some r.2.1, r.2.2⟩

/-- The value stored by an assignment line: None, a string, or a list. -/
def LineValue.toValue : LineValue → Value
  | .absent => .absent
  | .scalar s => .str s
  | .list l => .vlist l

/-- GroupState: one frame of the parsing stack in FileBackend.load. The
Python object holds the indentation at which the group was opened and a
dict aliased into its parent; the pure model records instead the key under
which the group lives in its parent (`name`), and performs the parent
insertion when the frame is popped, which yields the same final dict. The
root frame (indentation -1) is the bottom of the stack and is never
popped because line indentations are never negative. -/
structure GroupState where
  indentation : Int
  name : String
  data : Entries

/-- Merge a popped child group (its parent key and its data) into a dict. -/
def applyPending (pending : Option (String × Entries)) (d : Entries) : Entries :=
  match pending with
  | none => d
  | some (n, pd) => dinsert d n (.map pd)

/-- The while loop in FileBackend.load that pops stack frames whose
indentation is greater than or equal to the current line's indentation.
`pending` carries the most recently popped group on its way down. -/
def pop_frames (ind : Int) (pending : Option (String × Entries)) : List GroupState → List GroupState
  | [] => []
  | f :: rest =>
    if f.indentation ≥ ind then
      pop_frames ind (some (f.name, applyPending pending f.data)) rest
    else
      ⟨f.indentation, f.name, applyPending pending f.data⟩ :: rest

/-- Collapse the whole stack at end of input, returning the root dict
(Python reads state_stack[-1].data, whose nested dicts were filled in
through aliasing; the pure model folds the frames down instead). -/
def collapse (pending : Option (String × Entries)) : List GroupState → Entries
  | [] => []
  | f :: rest =>
    match rest with
    | [] => applyPending pending f.data
    | _ :: _ => collapse (some (f.name, applyPending pending f.data)) rest

/-- The per-line state update of FileBackend.load: skip nameless lines,
pop closed frames, then either open a section or record an assignment. -/
def loadStep (stack : List GroupState) (l : Line) : List GroupState :=
  match l.name with
  | none => stack
  | some name =>
    let stack := pop_frames (l.indentation : Int) none stack
    if l.separator = some ':' then
      ⟨(l.indentation : Int), name, []⟩ :: stack
    else if l.separator = some '=' then
      match stack with
      | [] => []
      | f :: rest => ⟨f.indentation, f.name, dinsert f.data name l.value.toValue⟩ :: rest
    else stack

/-- The line-processing loop of FileBackend.load, with 1-based numbering. -/
def load_lines_go : List String → Nat → List GroupState → Except FileParserError Entries
  | [], _, stack => .ok (collapse none stack)
  | l :: rest, lineno, stack =>
    match _parse_line l lineno with
    | .error e => .error e
    | .ok pl => load_lines_go rest (lineno + 1) (loadStep stack pl)

/-- Parse a sequence of (terminator-stripped) lines as FileBackend.load
does, starting from a stack holding only the root frame at indentation -1. -/
def load_lines (lines : List String) : Except FileParserError Entries :=
  load_lines_go lines 1 [⟨-1, "", []⟩]

/-- The outcome of the file I/O performed by FileBackend.load: the file
was read completely as a list of lines, it did not exist (IOError with
errno ENOENT raised by open), opening failed for any other reason, or the
file opened but reading it failed partway through the line loop. -/
inductive OpenResult where
  | success (lines : List String)
  | fileNotFound
  | failure (msg : String)
  | readFailure (msg : String)
deriving DecidableEq, Repr

/-- What escapes from a failed FileBackend.load call: either a
ConfigurationBackendError raised by the method itself, or an exception it
does not catch. The try/except in the source surrounds only the open
call, so an IOError raised while iterating the open file is not wrapped. -/
inductive LoadError where
  | wrapped (e : ConfigurationBackendError)
  | unwrappedIOError (msg : String)
deriving DecidableEq, Repr

/-- Did load fail with a ConfigurationBackendError (as opposed to letting
some other exception escape)? -/
def LoadError.isBackendError : LoadError → Bool
  | .wrapped _ => true
  | .unwrappedIOError _ => false

/-- FileBackend.load: a missing file yields an empty dict, any other open
failure is wrapped into a ConfigurationBackendError, a read failure after
a successful open escapes unwrapped, and otherwise the lines are parsed
(parse errors propagate, being themselves backend errors). -/
def load (r : OpenResult) : Except LoadError Entries :=
  match r with
  | .fileNotFound => .ok []
  | .failure msg => .error (.wrapped (.ioError msg))
  | .readFailure msg => .error (.unwrappedIOError msg)
  | .success lines =>
    match load_lines lines with
    | .error e => .error (.wrapped (.parser e))
    | .ok m => .ok m

/-- Python string comparison: lexicographic on code points. -/
def strLt : List Char → List Char → Bool
  | [], [] => false
  | [], _ :: _ => true
  | _ :: _, [] => false
  | a :: as, b :: bs =>
    if a.toNat < b.toNat then true
    else if a = b then strLt as bs
    else false

/-- Insert an entry into a key-sorted entry list, before the first entry
whose key is not smaller (so earlier entries with an equal key stay in
front: a stable insertion). -/
def insertEntry (e : String × Value) : Entries → Entries
  | [] => [e]
  | f :: rest =>
    if strLt f.1.data e.1.data then f :: insertEntry e rest
    else e :: f :: rest

/-- Python sorted(group.items()): a stable sort of the entries. The keys
of a dict are distinct, so comparing keys alone agrees with Python's
tuple comparison. -/
def sortEntries : Entries → Entries
  | [] => []
  | e :: rest => insertEntry e (sortEntries rest)

mutual
/-- Nesting depth of a value: how many levels of dict it contains. -/
def Value.depth : Value → Nat
  | .map m => 1 + entriesDepth m
  | _ => 0

/-- Nesting depth of a dict's values. -/
def entriesDepth : Entries → Nat
  | [] => 0
  | (_, v) :: rest => max v.depth (entriesDepth rest)
end

/-- The body of the for loop of FileBackend._build_group: walk the sorted
entries accumulating the setting lines and the group lines, recursing into
nested dicts through `recurse`. -/
def build_entries (recurse : Entries → Nat → Except FileBuilderError (List String))
    (indentation : Nat) : Entries → Except FileBuilderError (List String × List String)
  | [] => .ok ([], [])
  | (name, data) :: rest =>
    let indent_spaces := String.mk (List.replicate (4 * indentation) ' ')
    match data with
    | .absent =>
      match build_entries recurse indentation rest with
      | .error e => .error e
      | .ok (s, g) => .ok ((indent_spaces ++ _escape name ++ " =") :: s, g)
    | .map m =>
      match recurse m (indentation + 1) with
      | .error e => .error e
      | .ok sub =>
        match build_entries recurse indentation rest with
        | .error e => .error e
        | .ok (s, g) => .ok (s, ((indent_spaces ++ _escape name ++ ":") :: (sub ++ [""])) ++ g)
    | .vlist l =>
      let list_value := String.intercalate ", " (l.map _escape)
      let list_value := if l.length = 1 then list_value ++ "," else list_value
      match build_entries recurse indentation rest with
      | .error e => .error e
      | .ok (s, g) => .ok ((indent_spaces ++ _escape name ++ " = " ++ list_value) :: s, g)
    | .str v =>
      match build_entries recurse indentation rest with
      | .error e => .error e
      | .ok (s, g) => .ok ((indent_spaces ++ _escape name ++ " = " ++ _escape v) :: s, g)
    | .other t => .error ⟨t⟩

/-- FileBackend._build_group with explicit recursion fuel: sort the
entries, build all lines, and emit the setting lines before the group
lines. Fuel exceeding the nesting depth never reaches the zero branch. -/
def buildGroupF : Nat → Entries → Nat → Except FileBuilderError (List String)
  | 0, _, _ => .ok []
  | fuel + 1, group, indentation =>
    match build_entries (buildGroupF fuel) indentation (sortEntries group) with
    | .error e => .error e
    | .ok (setting_lines, group_lines) => .ok (setting_lines ++ group_lines)

/-- FileBackend._build_group, with fuel sufficient for the whole tree. -/
def _build_group (group : Entries) (indentation : Nat) : Except FileBuilderError (List String) :=
  buildGroupF (entriesDepth group + 1) group indentation

/-- The file-system effects of FileBackend.save, in order: create the
configuration directory, write the serialized lines to a fresh temporary
file, and rename it over the target path. -/
inductive FsOp where
  | makedirs
  | writeTempFile (lines : List String)
  | renameToTarget
deriving DecidableEq, Repr

/-- FileBackend.save: the whole line sequence is built first; only when
building succeeds does any file-system operation happen. -/
def save (data : Entries) : Except FileBuilderError (List FsOp) :=
  match _build_group data 0 with
  | .error e => .error e
  | .ok lines => .ok [.makedirs, .writeTempFile lines, .renameToTarget]

/-- Serialize a tree and read it back: the composition tested by the
round-trip property. The lines written by save contain no newline or
carriage return (every value is escaped), so writing them joined by the
line separator and splitting on read returns the same line list. -/
def save_then_load (t : Entries) : Except LoadError Entries :=
  match _build_group t 0 with
  | .error e => .error (.wrapped (.builder e))
  | .ok lines => load (.success lines)

/-- Is this value a nested dict? -/
def Value.isMapB : Value → Bool
  | .map _ => true
  | _ => false

/-- Setting entries (scalar, list, absent) first, then section entries, as
save orders the lines of one level. -/
def partitionSettings (es : Entries) : Entries :=
  es.filter (fun e => !e.2.isMapB) ++ es.filter (fun e => e.2.isMapB)

mutual
/-- The canonical form a value assumes after one save/load round trip:
every dict level is key-sorted with settings before sections. -/
def canonV : Value → Value
  | .absent => .absent
  | .str s => .str s
  | .vlist l => .vlist l
  | .other t => .other t
  | .map m => .map (partitionSettings (sortEntries (canonEs m)))

/-- Canonicalize the values of an entry list, keeping order. -/
def canonEs : Entries → Entries
  | [] => []
  | (k, v) :: r => (k, canonV v) :: canonEs r
end

/-- The canonical form of a whole dict level. -/
def canonEntries (m : Entries) : Entries :=
  partitionSettings (sortEntries (canonEs m))

/-- Structural equality of value trees ignoring key order at every dict
level: same keys, and recursively related values under each key. -/
inductive VPerm : Value → Value → Prop where
  | absent : VPerm .absent .absent
  | str (s : String) : VPerm (.str s) (.str s)
  | vlist (l : List String) : VPerm (.vlist l) (.vlist l)
  | other (t : String) : VPerm (.other t) (.other t)
  | map (m1 m2 : Entries) :
      (∀ k, k ∈ keysE m1 ↔ k ∈ keysE m2) →
      (∀ k v1 v2, lookupE m1 k = some v1 → lookupE m2 k = some v2 → VPerm v1 v2) →
      VPerm (.map m1) (.map m2)

/-- A string free of control characters (Unicode category Cc). -/
def ctrlFree (s : String) : Bool :=
  s.data.all (fun c => !(c.toNat < 32 || (127 ≤ c.toNat && c.toNat ≤ 159)))

mutual
/-- The hypothesis of the round-trip claim exactly as stated: the tree is
built from the four supported kinds only, and every key is a string free
of control characters. -/
def Value.claimWF : Value → Bool
  | .absent => true
  | .str _ => true
  | .vlist _ => true
  | .other _ => false
  | .map m => entriesClaimWF m

/-- claimWF at a dict level: control-free distinct keys, supported values. -/
def entriesClaimWF : Entries → Bool
  | [] => true
  | (k, v) :: rest =>
    ctrlFree k && !(keyMem rest k) && Value.claimWF v && entriesClaimWF rest
end

mutual
/-- The amended round-trip hypothesis: additionally every key is nonempty,
every list is nonempty, and every key and string value carries whitespace
only from the escaped class, the six ASCII whitespace characters (an empty
key, an empty list, or a string with other unicode whitespace such as
U+00A0 does not survive the trip, as the counterexample shows). -/
def Value.saveWF : Value → Bool
  | .absent => true
  | .str s => spacesEscapable s
  | .vlist l => !l.isEmpty && l.all spacesEscapable
  | .other _ => false
  | .map m => entriesSaveWF m

/-- saveWF at a dict level. -/
def entriesSaveWF : Entries → Bool
  | [] => true
  | (k, v) :: rest =>
    !(k == "") && ctrlFree k && spacesEscapable k && !(keyMem rest k) &&
      Value.saveWF v && entriesSaveWF rest
end

mutual
/-- Does the tree contain a value of an unsupported kind anywhere? -/
def Value.hasOther : Value → Bool
  | .other _ => true
  | .map m => entriesHaveOther m
  | _ => false

/-- hasOther over a dict level. -/
def entriesHaveOther : Entries → Bool
  | [] => false
  | (_, v) :: rest => v.hasOther || entriesHaveOther rest
end

theorem applyPending_none (d : Entries) : applyPending none d = d := rfl

theorem lookupE_dinsert (m : Entries) (k : String) (v : Value) :
    lookupE (dinsert m k v) k = some v := by
  induction m with
  | nil => simp [dinsert, lookupE]
  | cons e rest ih =>
    obtain ⟨k1, v1⟩ := e
    by_cases hk : k1 = k
    · subst hk
      simp [dinsert, lookupE]
    · simp [dinsert, lookupE, hk, ih]

/-- C2 (amended): load returns the empty mapping, not an error, when the
file does not exist; an I/O failure while opening the file is wrapped in a
ConfigurationBackendError; but an I/O failure while reading the already
opened file escapes unwrapped, because the try/except covers only open. -/
theorem load_missing_file_and_io_errors :
    load .fileNotFound = .ok [] ∧
    (∀ msg, load (.failure msg) = .error (.wrapped (.ioError msg))) ∧
    (∀ msg, load (.readFailure msg) = .error (.unwrappedIOError msg) ∧
      LoadError.isBackendError (.unwrappedIOError msg) = false) :=
  ⟨rfl, fun _ => rfl, fun _ => ⟨rfl, rfl⟩⟩

/-- C2 counterexample: a read failure after a successful open is reported
as a plain IOError, not as a ConfigurationBackendError, contradicting the
claim that any I/O failure on reading raises a backend error. -/
theorem load_read_error_not_wrapped_cex :
    load (.readFailure "io") = .error (.unwrappedIOError "io") ∧
    LoadError.isBackendError (.unwrappedIOError "io") = false :=
  ⟨rfl, rfl⟩

/-- C4: frames are popped while the top frame's indentation is at least
the current line's indentation (a frame below that bound is left alone,
and popping always stops strictly below the bound), so a line nests
inside a section exactly when it is indented strictly more; in particular
the documented nested example loads as stated, any positive indentation
increase opens one level, and equal indentation closes the section. -/
theorem load_nesting_by_indentation :
    (∀ (i : Int) (f : GroupState) rest, f.indentation < i →
      pop_frames i none (f :: rest) = f :: rest) ∧
    (∀ (i : Int) p stack g rest, pop_frames i p stack = g :: rest → g.indentation < i) ∧
    load_lines ["a:", "    b:", "        c = 1", "d = 2"] =
      .ok [("a", .map [("b", .map [("c", .str "1")])]), ("d", .str "2")] ∧
    load_lines ["a:", " b = 1", "c = 2"] = .ok [("a", .map [("b", .str "1")]), ("c", .str "2")] ∧
    load_lines ["a:", "b = 1"] = .ok [("a", .map []), ("b", .str "1")] := by
  refine ⟨?_, ?_, rfl, rfl, rfl⟩
  · intro i f rest h
    have hn : ¬ f.indentation ≥ i := not_le.mpr h
    simp [pop_frames, hn, applyPending]
  · intro i p stack
    induction stack generalizing p with
    | nil => intro g rest h; simp [pop_frames] at h
    | cons f rest ih =>
      intro g rest2 h
      by_cases hge : f.indentation ≥ i
      · rw [pop_frames, if_pos hge] at h
        exact ih _ _ _ h
      · rw [pop_frames, if_neg hge] at h
        injection h with h1 _
        rw [← h1]
        exact not_le.mp hge

/-- Witness for C4's conditional parts at concrete inputs. -/
theorem load_nesting_by_indentation_witness :
    pop_frames 4 none [(⟨0, "a", []⟩ : GroupState)] = [⟨0, "a", []⟩] ∧
    (⟨0, "a", [("b", Value.map [])]⟩ : GroupState).indentation < 4 :=
  ⟨load_nesting_by_indentation.1 4 ⟨0, "a", []⟩ [] (by decide),
   load_nesting_by_indentation.2.1 4 none [⟨5, "b", []⟩, ⟨0, "a", []⟩]
     ⟨0, "a", [("b", Value.map [])]⟩ [] rfl⟩

/-- C5: a key collision within one mapping level never raises during
load: the later occurrence silently overwrites the earlier one, for
assignments over assignments, sections over sections, sections over
assignments and assignments over sections; dict insertion always makes
the inserted value the one found under the key. -/
theorem load_key_collision_overwrites :
    (∀ (m : Entries) (k : String) (v : Value), lookupE (dinsert m k v) k = some v) ∧
    load_lines ["a = 1", "a = 2"] = .ok [("a", .str "2")] ∧
    load_lines ["a:", "    x = 1", "a:", "    y = 2"] = .ok [("a", .map [("y", .str "2")])] ∧
    load_lines ["a = 1", "a:", "    x = 2"] = .ok [("a", .map [("x", .str "2")])] ∧
    load_lines ["a:", "    x = 1", "a = 2"] = .ok [("a", .str "2")] :=
  ⟨lookupE_dinsert, rfl, rfl, rfl, rfl⟩

/-- C7: a one-element list is saved with a trailing comma, and parsing a
line whose value ends in a single trailing comma yields a one-element
list, not a scalar: the first comma promotes the value to a list. -/
theorem single_element_list_round_trip :
    _build_group [("x", .vlist ["a"])] 0 = .ok ["x = a,"] ∧
    load_lines ["x = a,"] = .ok [("x", .vlist ["a"])] ∧
    _parse_line "x = a," 1 = .ok ⟨0, some "x", some '=', .list ["a"]⟩ ∧
    parse_values "a,".data none = .ok (.list ["a"]) ∧
    parse_values "a, b".data none = .ok (.list ["a", "b"]) ∧
    save_then_load [("x", .vlist ["a"])] = .ok [("x", .vlist ["a"])] :=
  ⟨rfl, rfl, rfl, rfl, rfl, rfl⟩

/-- C10: quotes do not delimit tokens; a quoted region concatenates in
place with its unquoted surroundings inside one name or value token, and
an empty quote pair contributes nothing. -/
theorem quotes_concatenate_in_place :
    _parse_line "x = a\" \"b" 1 = .ok ⟨0, some "x", some '=', .scalar "a b"⟩ ∧
    _parse_line "x = a\"\"b" 1 = .ok ⟨0, some "x", some '=', .scalar "ab"⟩ ∧
    _parse_line "a\" \"b = 1" 1 = .ok ⟨0, some "a b", some '=', .scalar "1"⟩ :=
  ⟨rfl, rfl, rfl⟩

/-- C1 counterexample: three trees satisfying the stated hypotheses (only
the four supported kinds, keys free of control characters) that do not
survive a save/load round trip: an empty list comes back as an absent
value, an empty key does not load at all, and a string value containing
U+00A0 (no-break space, which the unicode str.isspace of the source treats
as whitespace but the escape class does not cover) is written unquoted and
then fails to parse, the tokenizer ending the value token at that
character. -/
theorem round_trip_cex :
    entriesClaimWF [("k", Value.vlist [])] = true ∧
    save_then_load [("k", Value.vlist [])] = .ok [("k", Value.absent)] ∧
    ¬ VPerm (.map [("k", Value.absent)]) (.map [("k", Value.vlist [])]) ∧
    entriesClaimWF [("", Value.str "x")] = true ∧
    save_then_load [("", Value.str "x")] = .error (.wrapped (.parser ⟨1, .missingName⟩)) ∧
    entriesClaimWF [("k", Value.str "a\u00A0b")] = true ∧
    save_then_load [("k", Value.str "a\u00A0b")] =
      .error (.wrapped (.parser ⟨1, .unexpectedAfterValue⟩)) := by
  refine ⟨rfl, rfl, ?_, rfl, rfl, by decide, rfl⟩
  intro h
  cases h with
  | map _ _ hk hl =>
    have h1 : lookupE [("k", Value.absent)] "k" = some Value.absent := rfl
    have h2 : lookupE [("k", Value.vlist [])] "k" = some (Value.vlist []) := rfl
    have := hl "k" _ _ h1 h2
    cases this

theorem dropWhile_replicate_space (k : Nat) :
    (List.replicate k ' ').dropWhile pyIsSpace = [] := by
  induction k with
  | zero => rfl
  | succ n ih =>
    rw [List.replicate_succ, List.dropWhile_cons]
    simp only [pyIsSpace]
    simp [ih]

theorem isEmpty_reverse_chars (x : List Char) : x.reverse.isEmpty = x.isEmpty := by
  cases x <;> simp

theorem rstrip_replicate_append (k : Nat) (l : List Char) :
    rstrip (List.replicate k ' ' ++ l) =
      if (rstrip l).isEmpty then [] else List.replicate k ' ' ++ rstrip l := by
  unfold rstrip
  rw [List.reverse_append, List.dropWhile_append, isEmpty_reverse_chars]
  by_cases h : (l.reverse.dropWhile pyIsSpace).isEmpty
  · rw [if_pos h, if_pos h]
    rw [List.reverse_replicate, dropWhile_replicate_space, List.reverse_nil]
  · rw [if_neg h, if_neg h]
    rw [List.reverse_append, List.reverse_reverse]

theorem advance_replicate_append (k : Nat) (l : List Char) :
    advance_to_next_token (List.replicate k ' ' ++ l) =
      ((advance_to_next_token l).1 + k, (advance_to_next_token l).2) := by
  induction k with
  | zero => simp
  | succ n ih =>
    rw [List.replicate_succ, List.cons_append, advance_to_next_token]
    simp only [pyIsSpace]
    simp [ih]
    omega

theorem parse_line_cases (l : String) (n : Nat) :
    _parse_line l n =
      if (rstrip l.data).isEmpty then .ok ⟨0, none, none, .absent⟩
      else if ((advance_to_next_token (rstrip l.data)).2).isEmpty then
        .ok ⟨(advance_to_next_token (rstrip l.data)).1, none, none, .absent⟩
      else
        match parse_line_rest (advance_to_next_token (rstrip l.data)).2 n with
        | .error e => .error e
        | .ok r =>
          .ok ⟨(advance_to_next_token (rstrip l.data)).1, some r.1, some r.2.1, r.2.2⟩ := by
  by_cases h : (rstrip l.data).isEmpty
  · have hnil : rstrip l.data = [] := by
      cases hs : rstrip l.data
      · rfl
      · rw [hs] at h
        simp at h
    rw [if_pos h]
    unfold _parse_line
    rw [hnil]
    rfl
  · rw [if_neg h]
    unfold _parse_line
    rfl

theorem parse_line_shifted (k : Nat) (l : String) (n : Nat) :
    _parse_line (String.mk (List.replicate k ' ') ++ l) n =
      if (rstrip l.data).isEmpty then .ok ⟨0, none, none, .absent⟩
      else if ((advance_to_next_token (rstrip l.data)).2).isEmpty then
        .ok ⟨(advance_to_next_token (rstrip l.data)).1 + k, none, none, .absent⟩
      else
        match parse_line_rest (advance_to_next_token (rstrip l.data)).2 n with
        | .error e => .error e
        | .ok r =>
          .ok ⟨(advance_to_next_token (rstrip l.data)).1 + k, some r.1, some r.2.1, r.2.2⟩ := by
  have hdata : (String.mk (List.replicate k ' ') ++ l).data = List.replicate k ' ' ++ l.data := by
    simp [String.data_append]
  unfold _parse_line
  rw [hdata, rstrip_replicate_append]
  by_cases h : (rstrip l.data).isEmpty
  · rw [if_pos h, if_pos h]
    rfl
  · rw [if_neg h, if_neg h]
    simp only [advance_replicate_append]

/-- C3: _parse_line raises a FileParserError carrying exactly the given
1-based line number on each malformed shape: a line with no separator, an
unterminated quote, a trailing backslash, an empty name before the
separator, content after a colon separator, and unexpected characters
after a value. Indentation alone never causes an error: prefixing any
line with any number of spaces leaves the parse outcome unchanged except
that the recorded indentation of a named line grows by that number. -/
theorem parse_line_error_conditions :
    (∀ n, _parse_line "foo bar" n = .error ⟨n, .expectedSeparator⟩) ∧
    (∀ n, _parse_line "x = \"abc" n = .error ⟨n, .missingQuote⟩) ∧
    (∀ n, _parse_line "x = abc\\" n = .error ⟨n, .unexpectedBackslash⟩) ∧
    (∀ n, _parse_line "\"\" = 1" n = .error ⟨n, .missingName⟩) ∧
    (∀ n, _parse_line "a: b" n = .error ⟨n, .unexpectedAfterColon⟩) ∧
    (∀ n, _parse_line "a = b c" n = .error ⟨n, .unexpectedAfterValue⟩) ∧
    (∀ k l n,
      match _parse_line l n, _parse_line (String.mk (List.replicate k ' ') ++ l) n with
      | .error e, .error e' => e' = e
      | .ok pl, .ok pl' =>
          pl'.name = pl.name ∧ pl'.separator = pl.separator ∧ pl'.value = pl.value ∧
          (pl.name ≠ none → pl'.indentation = pl.indentation + k)
      | _, _ => False) := by
  refine ⟨fun n => rfl, fun n => rfl, fun n => rfl, fun n => rfl, fun n => rfl, fun n => rfl, ?_⟩
  intro k l n
  rw [parse_line_cases l n, parse_line_shifted k l n]
  by_cases h : (rstrip l.data).isEmpty
  · rw [if_pos h, if_pos h]
    exact ⟨rfl, rfl, rfl, fun hc => absurd rfl hc⟩
  · rw [if_neg h, if_neg h]
    by_cases he : ((advance_to_next_token (rstrip l.data)).2).isEmpty
    · rw [if_pos he, if_pos he]
      exact ⟨rfl, rfl, rfl, fun hc => absurd rfl hc⟩
    · rw [if_neg he, if_neg he]
      cases hp : parse_line_rest (advance_to_next_token (rstrip l.data)).2 n
      · rfl
      · exact ⟨rfl, rfl, rfl, fun _ => rfl⟩

/-- Witness for C3 at a concrete input: two leading spaces shift the
recorded indentation of a named line by two. -/
theorem parse_line_error_conditions_witness :
    _parse_line "  a = 1" 1 = .ok ⟨2, some "a", some '=', .scalar "1"⟩ ∧
    (2 : Nat) = 0 + 2 :=
  ⟨rfl, (parse_line_error_conditions.2.2.2.2.2.2 2 "a = 1" 1).2.2.2 (by decide)⟩

theorem spacesEscapable_spec {s : String} (h : spacesEscapable s = true) {c : Char}
    (hc : c ∈ s.data) (hec : escape_characters c = false) : pyIsSpace c = false := by
  have h1 := List.all_eq_true.mp h c hc
  cases hps : pyIsSpace c
  · rfl
  · rw [hps, hec] at h1
    simp at h1

theorem except_map_map {α β γ : Type} (f : α → β) (g : β → γ) (x : Except ParseErrorKind α) :
    (x.map f).map g = x.map (fun a => g (f a)) := by
  cases x <;> rfl

theorem except_map_self (x : Except ParseErrorKind (List Char × List Char)) :
    x.map (fun r => (r.1, r.2)) = x := by
  cases x <;> rfl

theorem token_iterator_cons (d : List Char) (c : Char) (rest : List Char) (qc : Option Char) :
    token_iterator d (c :: rest) qc =
      if qc = none ∧ c ∈ d then .ok ([], c :: rest)
      else if c = squote ∨ c = '"' then
        match qc with
        | none => token_iterator d rest (some c)
        | some q =>
          if q = c then token_iterator d rest none
          else (token_iterator d rest qc).map (fun r => (c :: r.1, r.2))
      else if c = '\\' then
        match rest with
        | [] => .error .unexpectedBackslash
        | e :: rest2 =>
          (token_iterator d rest2 qc).map
            (fun r => ((if e = 'n' then '\n' else if e = 'r' then '\r' else e) :: r.1, r.2))
      else if qc = none ∧ c = '#' then .ok ([], [])
      else if qc = none ∧ pyIsSpace c then .ok ([], rest)
      else (token_iterator d rest qc).map (fun r => (c :: r.1, r.2)) := by
  rw [token_iterator.eq_def]

theorem token_iterator_ordinary (d : List Char) (hd : ∀ c ∈ d, escape_characters c = true) :
    ∀ (s rest : List Char), (∀ c ∈ s, escape_characters c = false) →
      (∀ c ∈ s, pyIsSpace c = false) →
      token_iterator d (s ++ rest) none =
        (token_iterator d rest none).map (fun r => (s ++ r.1, r.2)) := by
  intro s
  induction s with
  | nil =>
    intro rest _ _
    simp only [List.nil_append]
    exact (except_map_self _).symm
  | cons c cs ih =>
    intro rest h hw
    have hc : escape_characters c = false := h c (List.mem_cons_self c cs)
    have hnd : ¬ (c ∈ d) := fun hm => by rw [hd c hm] at hc; cases hc
    have hnq : ¬ (c = squote ∨ c = '"') := by
      rintro (rfl | rfl) <;> simp [escape_characters, squote] at hc
    have hnb : ¬ (c = '\\') := by
      rintro rfl; simp [escape_characters] at hc
    have hnh : ¬ (c = '#') := by
      rintro rfl; simp [escape_characters, squote] at hc
    have hns : ¬ (pyIsSpace c = true) := by
      rw [hw c (List.mem_cons_self c cs)]
      simp
    rw [List.cons_append, token_iterator_cons]
    rw [if_neg (fun hand => hnd hand.2), if_neg hnq, if_neg hnb,
      if_neg (fun hand => hnh hand.2), if_neg (fun hand => hns hand.2)]
    rw [ih rest (fun x hx => h x (List.mem_cons_of_mem c hx))
      (fun x hx => hw x (List.mem_cons_of_mem c hx))]
    rw [except_map_map]
    rfl

theorem token_iterator_open_quote (d rest : List Char) (hq : ¬ ('"' ∈ d)) :
    token_iterator d ('"' :: rest) none = token_iterator d rest (some '"') := by
  rw [token_iterator_cons, if_neg (fun hand => hq hand.2), if_pos (Or.inr rfl)]

theorem token_iterator_close_quote (d rest : List Char) :
    token_iterator d ('"' :: rest) (some '"') = token_iterator d rest none := by
  rw [token_iterator_cons, if_neg (fun hand => by cases hand.1), if_pos (Or.inr rfl)]
  rfl

theorem token_iterator_quoted_body (d : List Char) :
    ∀ (s rest : List Char),
      token_iterator d ((s.map escapeChar).flatten ++ rest) (some '"') =
        (token_iterator d rest (some '"')).map (fun r => (s ++ r.1, r.2)) := by
  intro s
  induction s with
  | nil =>
    intro rest
    simp only [List.map_nil, List.flatten_nil, List.nil_append]
    exact (except_map_self _).symm
  | cons c cs ih =>
    intro rest
    have hstep : ∀ t, token_iterator d (escapeChar c ++ t) (some '"') =
        (token_iterator d t (some '"')).map (fun r => (c :: r.1, r.2)) := by
      intro t
      by_cases h1 : c = '\\'
      · subst h1
        rw [show escapeChar '\\' = ['\\', '\\'] from rfl]
        rw [List.cons_append, token_iterator_cons]
        rw [if_neg (by rintro ⟨h, _⟩; cases h), if_neg (by decide), if_pos rfl]
        rw [List.cons_append]
        rfl
      · by_cases h2 : c = '"'
        · subst h2
          rw [show escapeChar '"' = ['\\', '"'] from rfl]
          rw [List.cons_append, token_iterator_cons]
          rw [if_neg (by rintro ⟨h, _⟩; cases h), if_neg (by decide), if_pos rfl]
          rw [List.cons_append]
          rfl
        · by_cases h3 : c = '\n'
          · subst h3
            rw [show escapeChar '\n' = ['\\', 'n'] from rfl]
            rw [List.cons_append, token_iterator_cons]
            rw [if_neg (by rintro ⟨h, _⟩; cases h), if_neg (by decide), if_pos rfl]
            rw [List.cons_append]
            rfl
          · by_cases h4 : c = '\r'
            · subst h4
              rw [show escapeChar '\r' = ['\\', 'r'] from rfl]
              rw [List.cons_append, token_iterator_cons]
              rw [if_neg (by rintro ⟨h, _⟩; cases h), if_neg (by decide), if_pos rfl]
              rw [List.cons_append]
              rfl
            · rw [show escapeChar c = [c] by simp [escapeChar, h1, h2, h3, h4]]
              rw [List.cons_append, List.nil_append, token_iterator_cons]
              rw [if_neg (fun hand => by cases hand.1)]
              by_cases hq : c = squote ∨ c = '"'
              · have hsq : c = squote := by
                  rcases hq with hq | hq
                  · exact hq
                  · exact absurd hq h2
                subst hsq
                rw [if_pos hq]
                rfl
              · rw [if_neg hq, if_neg h1, if_neg (fun hand => by cases hand.1),
                  if_neg (fun hand => by cases hand.1)]
    rw [List.map_cons, List.flatten_cons, List.append_assoc, hstep, ih, except_map_map]
    rfl

theorem token_iterator_escape (d : List Char) (hd : ∀ c ∈ d, escape_characters c = true)
    (hq : ¬ ('"' ∈ d)) (s : String) (rest : List Char) (hsp : spacesEscapable s = true) :
    token_iterator d ((_escape s).data ++ rest) none =
      (token_iterator d rest none).map (fun r => (s.data ++ r.1, r.2)) := by
  unfold _escape
  by_cases h0 : s = ""
  · subst h0
    rw [if_pos rfl]
    show token_iterator d ('"' :: '"' :: rest) none = _
    rw [token_iterator_open_quote d _ hq, token_iterator_close_quote d rest]
    exact (except_map_self _).symm
  · rw [if_neg h0]
    by_cases h1 : s.data.any escape_characters
    · rw [if_pos h1]
      have hdata : ("\"" ++ String.mk ((s.data.map escapeChar).flatten) ++ "\"").data =
          '"' :: ((s.data.map escapeChar).flatten ++ ['"']) := by
        simp [String.data_append]
      rw [hdata]
      rw [List.cons_append, token_iterator_open_quote d _ hq]
      rw [List.append_assoc, List.cons_append, List.nil_append]
      rw [token_iterator_quoted_body d s.data ('"' :: rest)]
      rw [token_iterator_close_quote d rest]
    · rw [if_neg h1]
      have hall : ∀ c ∈ s.data, escape_characters c = false := by
        intro c hc
        by_contra hne
        have : s.data.any escape_characters = true :=
          List.any_eq_true.mpr ⟨c, hc, Bool.of_not_eq_false hne⟩
        exact h1 this
      exact token_iterator_ordinary d hd s.data rest hall
        (fun c hc => spacesEscapable_spec hsp hc (hall c hc))

/-- C6: escape of the empty string is the explicit empty-quote pair; a
string containing any character of the escape class is wrapped in double
quotes with backslash, double quote, newline and carriage return
backslash-escaped; any other nonempty string is returned unchanged; and
for every string whose whitespace characters all lie within the escaped
class (the six ASCII whitespace characters; other unicode whitespace such
as U+00A0 is neither quoted by escape nor preserved by the tokenizer),
tokenizing the escaped form reproduces the original string exactly, both
in value position (comma delimiter) and in name position (colon or equals
delimiter). -/
theorem escape_spec :
    _escape "" = "\"\"" ∧
    (∀ s, s ≠ "" → s.data.any escape_characters = false → _escape s = s) ∧
    (∀ s, s ≠ "" → s.data.any escape_characters = true →
      _escape s = "\"" ++ String.mk ((s.data.map escapeChar).flatten) ++ "\"") ∧
    (∀ s, spacesEscapable s = true →
          token_iterator [','] ((_escape s).data) none = .ok (s.data, []) ∧
          token_iterator [':', '='] ((_escape s).data) none = .ok (s.data, [])) := by
  refine ⟨rfl, ?_, ?_, ?_⟩
  · intro s h0 h1
    unfold _escape
    rw [if_neg h0, if_neg (by simp [h1])]
  · intro s h0 h1
    unfold _escape
    rw [if_neg h0, if_pos h1]
  · intro s hsp
    constructor
    · have h1 := token_iterator_escape [','] (fun c hc => by
        have hc1 : c = ',' := List.mem_singleton.mp hc
        subst hc1
        decide) (by decide) s [] hsp
      rw [List.append_nil] at h1
      simpa [token_iterator, Except.map] using h1
    · have h1 := token_iterator_escape [':', '='] (fun c hc => by
        simp only [List.mem_cons, List.mem_singleton, List.not_mem_nil, or_false] at hc
        rcases hc with rfl | rfl <;> decide) (by decide) s [] hsp
      rw [List.append_nil] at h1
      simpa [token_iterator, Except.map] using h1

/-- C6 counterexample: a string containing U+00A0 (no-break space), which
the unicode str.isspace of the source treats as whitespace but the escape
class does not contain. _escape leaves the string unquoted, the tokenizer
then ends the token at that character, and the original string is not
reproduced. -/
theorem escape_tokenize_nbsp_cex :
    _escape "a\u00A0b" = "a\u00A0b" ∧
    pyIsSpace (Char.ofNat 0xA0) = true ∧
    escape_characters (Char.ofNat 0xA0) = false ∧
    token_iterator [','] ((_escape "a\u00A0b").data) none = .ok ("a".data, "b".data) ∧
    ¬ (token_iterator [','] ((_escape "a\u00A0b").data) none = .ok ("a\u00A0b".data, [])) := by
  refine ⟨rfl, by decide, by decide, rfl, ?_⟩
  intro h
  rw [show token_iterator [','] ((_escape "a\u00A0b").data) none =
    Except.ok (("a".data : List Char), ("b".data : List Char)) from rfl] at h
  simp at h

/-- Witness for C6 at concrete inputs: an ordinary string is unchanged, a
string with a comma is quoted, and a string whose whitespace is plain
ASCII space tokenizes back to the original. -/
theorem escape_spec_witness :
    _escape "abc" = "abc" ∧
    _escape "a,b" = "\"a,b\"" ∧
    token_iterator [','] ((_escape "a b").data) none = .ok ("a b".data, []) := by
  refine ⟨escape_spec.2.1 "abc" (by decide) (by decide), ?_,
    (escape_spec.2.2.2 "a b" (by decide)).1⟩
  have h := escape_spec.2.2.1 "a,b" (by decide) (by decide)
  rw [h]
  decide

theorem strLt_irrefl : ∀ a : List Char, strLt a a = false := by
  intro a
  induction a with
  | nil => rfl
  | cons c cs ih =>
    unfold strLt
    rw [if_neg (by omega), if_pos rfl]
    exact ih

theorem strLt_asymm : ∀ a b : List Char, strLt a b = true → strLt b a = false := by
  intro a
  induction a with
  | nil =>
    intro b h
    cases b with
    | nil => rfl
    | cons c cs => rfl
  | cons c cs ih =>
    intro b h
    cases b with
    | nil => cases h
    | cons e es =>
      unfold strLt at h ⊢
      by_cases h1 : c.toNat < e.toNat
      · rw [if_neg (by omega)]
        rw [if_neg (by intro he; subst he; omega)]
      · rw [if_neg h1] at h
        by_cases h2 : c = e
        · subst h2
          rw [if_pos rfl] at h
          rw [if_neg (by omega), if_pos rfl]
          exact ih es h
        · rw [if_neg h2] at h
          cases h

theorem strLt_trans : ∀ a b c : List Char, strLt a b = true → strLt b c = true →
    strLt a c = true := by
  intro a
  induction a with
  | nil =>
    intro b c hab hbc
    cases b with
    | nil => cases hab
    | cons e es =>
      cases c with
      | nil => cases hbc
      | cons f fs => rfl
  | cons x xs ih =>
    intro b c hab hbc
    cases b with
    | nil => cases hab
    | cons e es =>
      cases c with
      | nil => cases hbc
      | cons f fs =>
        unfold strLt at hab hbc ⊢
        by_cases h1 : x.toNat < e.toNat
        · have h2 : e.toNat ≤ f.toNat := by
            by_cases h3 : e.toNat < f.toNat
            · omega
            · rw [if_neg h3] at hbc
              by_cases h4 : e = f
              · subst h4; omega
              · rw [if_neg h4] at hbc; cases hbc
          rw [if_pos (by omega)]
        · rw [if_neg h1] at hab
          by_cases h2 : x = e
          · subst h2
            rw [if_pos rfl] at hab
            by_cases h3 : x.toNat < f.toNat
            · rw [if_pos h3]
            · rw [if_neg h3] at hbc ⊢
              by_cases h4 : x = f
              · subst h4
                rw [if_pos rfl] at hbc ⊢
                exact ih es fs hab hbc
              · rw [if_neg h4] at hbc
                cases hbc
          · rw [if_neg h2] at hab
            cases hab

theorem char_eq_of_toNat_eq {a b : Char} (h : a.toNat = b.toNat) : a = b := by
  apply Char.ext
  exact UInt32.ext h

theorem strLt_antisymm : ∀ a b : List Char, strLt a b = false → strLt b a = false →
    a = b := by
  intro a
  induction a with
  | nil =>
    intro b hab hba
    cases b with
    | nil => rfl
    | cons e es => cases hab
  | cons x xs ih =>
    intro b hab hba
    cases b with
    | nil => cases hba
    | cons e es =>
      unfold strLt at hab hba
      by_cases h1 : x.toNat < e.toNat
      · rw [if_pos h1] at hab; cases hab
      · by_cases h2 : e.toNat < x.toNat
        · rw [if_pos h2] at hba; cases hba
        · have hx : x = e := char_eq_of_toNat_eq (by omega)
          subst hx
          rw [if_neg h1, if_pos rfl] at hab
          rw [if_neg h2, if_pos rfl] at hba
          rw [ih es hab hba]

theorem strLt_false_trans : ∀ a b c : List Char, strLt a b = false → strLt b c = false →
    strLt a c = false := by
  intro a b c hab hbc
  by_contra hac
  have hac' : strLt a c = true := Bool.of_not_eq_false hac
  by_cases h1 : strLt b a = true
  · by_cases h2 : strLt c b = true
    · have := strLt_trans c b a h2 h1
      rw [strLt_asymm a c hac'] at this
      cases this
    · have hbc2 : b = c := strLt_antisymm b c hbc (by
        cases h3 : strLt c b
        · rfl
        · exact absurd h3 h2)
      subst hbc2
      rw [strLt_asymm a b hac'] at h1
      cases h1
  · have hab2 : a = b := strLt_antisymm a b hab (by
      cases h3 : strLt b a
      · rfl
      · exact absurd h3 h1)
    subst hab2
    rw [hac'] at hbc
    cases hbc

theorem insertEntry_perm (e : String × Value) : ∀ l, (insertEntry e l).Perm (e :: l) := by
  intro l
  induction l with
  | nil => exact List.Perm.refl _
  | cons f rest ih =>
    unfold insertEntry
    by_cases hc : strLt f.1.data e.1.data
    · rw [if_pos hc]
      exact (ih.cons f).trans (List.Perm.swap e f rest)
    · rw [if_neg hc]

theorem sortEntries_perm : ∀ l : Entries, (sortEntries l).Perm l := by
  intro l
  induction l with
  | nil => exact List.Perm.refl _
  | cons e rest ih =>
    unfold sortEntries
    exact (insertEntry_perm e (sortEntries rest)).trans (ih.cons e)

theorem mem_insertEntry {x e : String × Value} {l : Entries} (h : x ∈ insertEntry e l) :
    x = e ∨ x ∈ l := by
  have := (insertEntry_perm e l).mem_iff.mp h
  simpa using this

theorem mem_sortEntries {x : String × Value} {l : Entries} (h : x ∈ sortEntries l) : x ∈ l :=
  (sortEntries_perm l).mem_iff.mp h

/-- Entry a may precede entry b in sorted output: b's key is not smaller. -/
def entryLe (a b : String × Value) : Prop := strLt b.1.data a.1.data = false

theorem insertEntry_sorted (e : String × Value) : ∀ l, l.Pairwise entryLe →
    (insertEntry e l).Pairwise entryLe := by
  intro l
  induction l with
  | nil => intro _; exact List.pairwise_singleton _ _
  | cons f rest ih =>
    intro hp
    rcases List.pairwise_cons.mp hp with ⟨hf, hrest⟩
    unfold insertEntry
    by_cases hc : strLt f.1.data e.1.data
    · rw [if_pos hc]
      refine List.pairwise_cons.mpr ⟨?_, ih hrest⟩
      intro x hx
      rcases mem_insertEntry hx with rfl | hx2
      · exact strLt_asymm _ _ hc
      · exact hf x hx2
    · rw [if_neg hc]
      have hfe : strLt f.1.data e.1.data = false := by
        cases h : strLt f.1.data e.1.data
        · rfl
        · exact absurd h hc
      refine List.pairwise_cons.mpr ⟨?_, hp⟩
      intro x hx
      rcases List.mem_cons.mp hx with rfl | hx2
      · exact hfe
      · exact strLt_false_trans _ _ _ (hf x hx2) hfe

theorem sortEntries_sorted : ∀ l : Entries, (sortEntries l).Pairwise entryLe := by
  intro l
  induction l with
  | nil => exact List.Pairwise.nil
  | cons e rest ih =>
    unfold sortEntries
    exact insertEntry_sorted e (sortEntries rest) ih

/-- Every line of one serialized level is blank or starts with the
4-spaces-per-depth indentation. -/
def linesIndented (d : Nat) (lines : List String) : Prop :=
  ∀ l ∈ lines, l = "" ∨ ∃ t, l.data = List.replicate (4 * d) ' ' ++ t

theorem indent_weaken {d : Nat} {l : String}
    (h : l = "" ∨ ∃ t, l.data = List.replicate (4 * (d + 1)) ' ' ++ t) :
    l = "" ∨ ∃ t, l.data = List.replicate (4 * d) ' ' ++ t := by
  rcases h with h | ⟨t, ht⟩
  · exact Or.inl h
  · refine Or.inr ⟨List.replicate 4 ' ' ++ t, ?_⟩
    rw [ht, show 4 * (d + 1) = 4 * d + 4 by ring, List.replicate_add, List.append_assoc]

theorem indent_line2 (d : Nat) (r1 r2 : String) :
    (String.mk (List.replicate (4 * d) ' ') ++ r1 ++ r2) = "" ∨
    ∃ t, (String.mk (List.replicate (4 * d) ' ') ++ r1 ++ r2).data =
      List.replicate (4 * d) ' ' ++ t :=
  Or.inr ⟨r1.data ++ r2.data, by simp [String.data_append]⟩

theorem indent_line3 (d : Nat) (r1 r2 r3 : String) :
    (String.mk (List.replicate (4 * d) ' ') ++ r1 ++ r2 ++ r3) = "" ∨
    ∃ t, (String.mk (List.replicate (4 * d) ' ') ++ r1 ++ r2 ++ r3).data =
      List.replicate (4 * d) ' ' ++ t :=
  Or.inr ⟨r1.data ++ r2.data ++ r3.data, by simp [String.data_append]⟩

theorem build_entries_indent :
    ∀ (es : Entries) (recurse : Entries → Nat → Except FileBuilderError (List String))
      (d : Nat) (s g : List String),
    (∀ (m : Entries) (lines : List String), recurse m (d + 1) = .ok lines →
      linesIndented (d + 1) lines) →
    build_entries recurse d es = .ok (s, g) →
    linesIndented d (s ++ g) := by
  intro es
  induction es with
  | nil =>
    intro recurse d s g _ h
    simp only [build_entries] at h
    injection h with h
    injection h with h1 h2
    rw [← h1, ← h2]
    intro l hl
    cases hl
  | cons e rest ih =>
    intro recurse d s g hrec h
    obtain ⟨name, data⟩ := e
    simp only [build_entries] at h
    cases data with
    | absent =>
      cases hr : build_entries recurse d rest with
      | error err => rw [hr] at h; cases h
      | ok p =>
        obtain ⟨s', g'⟩ := p
        rw [hr] at h
        simp only at h
        injection h with h
        injection h with h1 h2
        rw [← h1, ← h2]
        intro l hl
        rcases List.mem_append.mp hl with hl | hl
        · rcases List.mem_cons.mp hl with rfl | hl
          · exact indent_line2 d _ _
          · exact ih recurse d s' g' hrec hr l (List.mem_append.mpr (Or.inl hl))
        · exact ih recurse d s' g' hrec hr l (List.mem_append.mpr (Or.inr hl))
    | str v =>
      cases hr : build_entries recurse d rest with
      | error err => rw [hr] at h; cases h
      | ok p =>
        obtain ⟨s', g'⟩ := p
        rw [hr] at h
        simp only at h
        injection h with h
        injection h with h1 h2
        rw [← h1, ← h2]
        intro l hl
        rcases List.mem_append.mp hl with hl | hl
        · rcases List.mem_cons.mp hl with rfl | hl
          · exact indent_line3 d _ _ _
          · exact ih recurse d s' g' hrec hr l (List.mem_append.mpr (Or.inl hl))
        · exact ih recurse d s' g' hrec hr l (List.mem_append.mpr (Or.inr hl))
    | vlist lv =>
      cases hr : build_entries recurse d rest with
      | error err => rw [hr] at h; cases h
      | ok p =>
        obtain ⟨s', g'⟩ := p
        rw [hr] at h
        simp only at h
        injection h with h
        injection h with h1 h2
        rw [← h1, ← h2]
        intro l hl
        rcases List.mem_append.mp hl with hl | hl
        · rcases List.mem_cons.mp hl with rfl | hl
          · exact indent_line3 d _ _ _
          · exact ih recurse d s' g' hrec hr l (List.mem_append.mpr (Or.inl hl))
        · exact ih recurse d s' g' hrec hr l (List.mem_append.mpr (Or.inr hl))
    | map m =>
      dsimp only at h
      cases hm : recurse m (d + 1) with
      | error err => rw [hm] at h; cases h
      | ok sub =>
        rw [hm] at h
        cases hr : build_entries recurse d rest with
        | error err => rw [hr] at h; cases h
        | ok p =>
          obtain ⟨s', g'⟩ := p
          rw [hr] at h
          simp only at h
          injection h with h
          injection h with h1 h2
          rw [← h1, ← h2]
          intro l hl
          rcases List.mem_append.mp hl with hl | hl
          · exact ih recurse d s' g' hrec hr l (List.mem_append.mpr (Or.inl hl))
          · rcases List.mem_cons.mp hl with rfl | hl
            · exact indent_line2 d _ _
            · rcases List.mem_append.mp hl with hl | hl
              · rcases List.mem_append.mp hl with hl | hl
                · exact indent_weaken (hrec m sub hm l hl)
                · rcases List.mem_singleton.mp hl with rfl
                  exact Or.inl rfl
              · exact ih recurse d s' g' hrec hr l (List.mem_append.mpr (Or.inr hl))
    | other t => cases h

theorem buildGroupF_indent : ∀ (fuel : Nat) (es : Entries) (d : Nat) (lines : List String),
    buildGroupF fuel es d = .ok lines → linesIndented d lines := by
  intro fuel
  induction fuel with
  | zero =>
    intro es d lines h
    injection h with h
    rw [← h]
    intro l hl
    cases hl
  | succ fuel ih =>
    intro es d lines h
    rw [buildGroupF] at h
    cases hb : build_entries (buildGroupF fuel) d (sortEntries es) with
    | error err => rw [hb] at h; cases h
    | ok p =>
      obtain ⟨s, g⟩ := p
      rw [hb] at h
      simp only at h
      injection h with h
      rw [← h]
      exact build_entries_indent (sortEntries es) (buildGroupF fuel) d s g
        (fun m lines' hm => ih m (d + 1) lines' hm) hb

/-- C8: the serializer is a pure function of the input tree whose output
at every level lists the entries in key-sorted order (sortEntries returns
a key-sorted permutation of the dict items), every emitted line is blank
or carries exactly 4 spaces of indentation per nesting depth, and at one
level all setting lines precede all section lines, as the concrete
example shows. -/
theorem save_deterministic_sorted_layout :
    (∀ l : Entries, (sortEntries l).Pairwise entryLe) ∧
    (∀ l : Entries, (sortEntries l).Perm l) ∧
    (∀ (fuel : Nat) (es : Entries) (d : Nat) (lines : List String),
      buildGroupF fuel es d = .ok lines → linesIndented d lines) ∧
    _build_group
        [("z", .str "1"), ("b", .map [("x", .absent)]), ("a", .str "2"), ("c", .map [])] 0 =
      .ok ["a = 2", "z = 1", "b:", "    x =", "", "c:", ""] :=
  ⟨sortEntries_sorted, sortEntries_perm, buildGroupF_indent, rfl⟩

/-- Witness for C8's conditional part: the one serialized line of a depth
one group indeed starts with four spaces. -/
theorem save_deterministic_sorted_layout_witness :
    ("    x =" : String) = "" ∨
    ∃ t, ("    x =" : String).data = List.replicate (4 * 1) ' ' ++ t :=
  save_deterministic_sorted_layout.2.2.1 1 [("x", Value.absent)] 1 ["    x ="] rfl
    "    x =" (List.mem_singleton.mpr rfl)

theorem entriesHaveOther_insertEntry (e : String × Value) : ∀ l,
    entriesHaveOther (insertEntry e l) = (e.2.hasOther || entriesHaveOther l) := by
  intro l
  induction l with
  | nil =>
    obtain ⟨k, v⟩ := e
    simp [insertEntry, entriesHaveOther]
  | cons f rest ih =>
    obtain ⟨k, v⟩ := e
    obtain ⟨k1, v1⟩ := f
    unfold insertEntry
    by_cases hc : strLt k1.data k.data
    · rw [if_pos hc]
      simp only [entriesHaveOther] at *
      rw [ih]
      cases v.hasOther <;> cases v1.hasOther <;> simp
    · rw [if_neg hc]
      simp only [entriesHaveOther]

theorem entriesHaveOther_sortEntries : ∀ l : Entries,
    entriesHaveOther (sortEntries l) = entriesHaveOther l := by
  intro l
  induction l with
  | nil => rfl
  | cons e rest ih =>
    obtain ⟨k, v⟩ := e
    unfold sortEntries
    rw [entriesHaveOther_insertEntry]
    simp only [entriesHaveOther]
    rw [ih]

theorem entriesDepth_insertEntry (e : String × Value) : ∀ l,
    entriesDepth (insertEntry e l) = max e.2.depth (entriesDepth l) := by
  intro l
  induction l with
  | nil =>
    obtain ⟨k, v⟩ := e
    simp [insertEntry, entriesDepth]
  | cons f rest ih =>
    obtain ⟨k, v⟩ := e
    obtain ⟨k1, v1⟩ := f
    unfold insertEntry
    by_cases hc : strLt k1.data k.data
    · rw [if_pos hc]
      simp only [entriesDepth] at *
      rw [ih]
      omega
    · rw [if_neg hc]
      simp only [entriesDepth]

theorem entriesDepth_sortEntries : ∀ l : Entries,
    entriesDepth (sortEntries l) = entriesDepth l := by
  intro l
  induction l with
  | nil => rfl
  | cons e rest ih =>
    obtain ⟨k, v⟩ := e
    unfold sortEntries
    rw [entriesDepth_insertEntry]
    simp only [entriesDepth]
    rw [ih]

theorem depth_le_of_mem : ∀ (l : Entries) (k : String) (v : Value), (k, v) ∈ l →
    Value.depth v ≤ entriesDepth l := by
  intro l
  induction l with
  | nil => intro k v h; cases h
  | cons f rest ih =>
    intro k v h
    obtain ⟨k1, v1⟩ := f
    rcases List.mem_cons.mp h with h | h
    · injection h with h1 h2
      subst h2
      simp only [entriesDepth]
      omega
    · have := ih k v h
      simp only [entriesDepth]
      omega

theorem buildGroupF_hasOther : ∀ (fuel : Nat) (es : Entries) (d : Nat),
    entriesDepth es < fuel → entriesHaveOther es = true →
    ∃ e, buildGroupF fuel es d = .error e := by
  intro fuel
  induction fuel with
  | zero =>
    intro es d h
    exact absurd h (Nat.not_lt_zero _)
  | succ fuel ih =>
    intro es d hd ho
    have hmem : ∀ (k : String) (m : Entries), (k, Value.map m) ∈ sortEntries es →
        entriesDepth m < fuel := by
      intro k m hm
      have h1 := depth_le_of_mem _ k _ (mem_sortEntries hm)
      have h2 : Value.depth (Value.map m) = 1 + entriesDepth m := rfl
      omega
    have ho2 : entriesHaveOther (sortEntries es) = true := by
      rw [entriesHaveOther_sortEntries]
      exact ho
    have inner : ∀ (es' : Entries),
        (∀ (k : String) (m : Entries), (k, Value.map m) ∈ es' → entriesDepth m < fuel) →
        entriesHaveOther es' = true →
        ∃ e, build_entries (buildGroupF fuel) d es' = .error e := by
      intro es'
      induction es' with
      | nil => intro _ h; cases h
      | cons f rest ihh =>
        intro hdm ho'
        obtain ⟨k, v⟩ := f
        cases v with
        | other t => exact ⟨⟨t⟩, by simp [build_entries]⟩
        | map m =>
          by_cases hvo : Value.hasOther (Value.map m) = true
          · have hdepth : entriesDepth m < fuel := hdm k m (List.mem_cons_self _ _)
            have hm2 : entriesHaveOther m = true := by
              rw [show Value.hasOther (Value.map m) = entriesHaveOther m from rfl] at hvo
              exact hvo
            obtain ⟨e, he⟩ := ih m (d + 1) hdepth hm2
            exact ⟨e, by simp [build_entries, he]⟩
          · have hrest : entriesHaveOther rest = true := by
              have : entriesHaveOther ((k, Value.map m) :: rest) =
                  (Value.hasOther (Value.map m) || entriesHaveOther rest) := rfl
              rw [this] at ho'
              have ho'' : Value.hasOther (Value.map m) = true ∨ entriesHaveOther rest = true := by
                simpa using ho'
              rcases ho'' with h | h
              · exact absurd h hvo
              · exact h
            obtain ⟨e2, he2⟩ :=
              ihh (fun k' m' hm' => hdm k' m' (List.mem_cons_of_mem _ hm')) hrest
            cases hg : buildGroupF fuel m (d + 1) with
            | error e3 => exact ⟨e3, by simp [build_entries, hg]⟩
            | ok sub => exact ⟨e2, by simp [build_entries, hg, he2]⟩
        | absent =>
          have hrest : entriesHaveOther rest = true := by
            have : entriesHaveOther ((k, Value.absent) :: rest) =
                (Value.hasOther Value.absent || entriesHaveOther rest) := rfl
            rw [this] at ho'
            simpa [Value.hasOther] using ho'
          obtain ⟨e2, he2⟩ :=
            ihh (fun k' m' hm' => hdm k' m' (List.mem_cons_of_mem _ hm')) hrest
          exact ⟨e2, by simp [build_entries, he2]⟩
        | str s =>
          have hrest : entriesHaveOther rest = true := by
            have : entriesHaveOther ((k, Value.str s) :: rest) =
                (Value.hasOther (Value.str s) || entriesHaveOther rest) := rfl
            rw [this] at ho'
            simpa [Value.hasOther] using ho'
          obtain ⟨e2, he2⟩ :=
            ihh (fun k' m' hm' => hdm k' m' (List.mem_cons_of_mem _ hm')) hrest
          exact ⟨e2, by simp [build_entries, he2]⟩
        | vlist lv =>
          have hrest : entriesHaveOther rest = true := by
            have : entriesHaveOther ((k, Value.vlist lv) :: rest) =
                (Value.hasOther (Value.vlist lv) || entriesHaveOther rest) := rfl
            rw [this] at ho'
            simpa [Value.hasOther] using ho'
          obtain ⟨e2, he2⟩ :=
            ihh (fun k' m' hm' => hdm k' m' (List.mem_cons_of_mem _ hm')) hrest
          exact ⟨e2, by simp [build_entries, he2]⟩
    obtain ⟨e, he⟩ := inner (sortEntries es) hmem ho2
    exact ⟨e, by rw [buildGroupF, he]⟩

/-- C9: when the tree holds a value that is not None, dict, list or str
anywhere, save raises a FileBuilderError and performs no file-system
operation at all: the whole line sequence is built before any I/O, so a
build failure yields no makedirs, no temporary-file write and no rename. -/
theorem save_unsupported_type_errors_before_io (data : Entries)
    (h : entriesHaveOther data = true) :
    (∃ e, save data = .error e) ∧ (∀ ops, save data ≠ .ok ops) := by
  obtain ⟨e, he⟩ := buildGroupF_hasOther (entriesDepth data + 1) data 0 (by omega) h
  have hsave : save data = .error e := by
    unfold save _build_group
    rw [he]
  exact ⟨⟨e, hsave⟩, fun ops hok => by rw [hsave] at hok; cases hok⟩

/-- Witness for C9: a tree holding an int value makes save fail with a
FileBuilderError, so no file-system effect list is produced. -/
theorem save_unsupported_type_errors_before_io_witness :
    ∃ e, save [("k", Value.other "int")] = .error e :=
  (save_unsupported_type_errors_before_io [("k", Value.other "int")] rfl).1

/-- Indentation of the top stack frame (the root sits at -1). -/
def topIndent : List GroupState → Int
  | [] => -1
  | f :: _ => f.indentation

/-- Dict under construction in the top stack frame. -/
def topData : List GroupState → Entries
  | [] => []
  | f :: _ => f.data

/-- Replace the dict of the top stack frame. -/
def setTop : List GroupState → Entries → List GroupState
  | [], _ => []
  | f :: rest, D => ⟨f.indentation, f.name, D⟩ :: rest

/-- Fold a list of frames (top first) into one pending insertion, the way
popping them one by one would. -/
def squash (p : Option (String × Entries)) : List GroupState → Option (String × Entries)
  | [] => p
  | f :: rest => squash (some (f.name, applyPending p f.data)) rest

theorem setTop_nonempty {st : List GroupState} (h : st ≠ []) (D : Entries) :
    setTop st D ≠ [] := by
  cases st
  · exact absurd rfl h
  · simp [setTop]

theorem topData_setTop {st : List GroupState} (h : st ≠ []) (D : Entries) :
    topData (setTop st D) = D := by
  cases st
  · exact absurd rfl h
  · simp [setTop, topData]

theorem topIndent_setTop (st : List GroupState) (D : Entries) :
    topIndent (setTop st D) = topIndent st := by
  cases st <;> simp [setTop, topIndent]

theorem setTop_setTop (st : List GroupState) (D1 D2 : Entries) :
    setTop (setTop st D1) D2 = setTop st D2 := by
  cases st <;> simp [setTop]

theorem setTop_topData {st : List GroupState} (h : st ≠ []) :
    setTop st (topData st) = st := by
  cases st
  · exact absurd rfl h
  · simp [setTop, topData]

theorem squash_cons (p : Option (String × Entries)) (f : GroupState) (rest : List GroupState) :
    squash p (f :: rest) = squash (some (f.name, applyPending p f.data)) rest := rfl

theorem squash_append (a b : List GroupState) : ∀ p, squash p (a ++ b) = squash (squash p a) b := by
  induction a with
  | nil => intro p; rfl
  | cons f rest ih =>
    intro p
    rw [List.cons_append, squash_cons, ih, squash_cons]

theorem pop_frames_stop {st : List GroupState} {i : Int} (hne : st ≠ [])
    (hlt : topIndent st < i) (p : Option (String × Entries)) :
    pop_frames i p st = setTop st (applyPending p (topData st)) := by
  cases st with
  | nil => exact absurd rfl hne
  | cons f rest =>
    have : ¬ (f.indentation ≥ i) := not_le.mpr hlt
    unfold pop_frames
    rw [if_neg this]
    rfl

theorem pop_frames_cons (i : Int) (p : Option (String × Entries)) (f : GroupState)
    (rest : List GroupState) :
    pop_frames i p (f :: rest) =
      if f.indentation ≥ i then pop_frames i (some (f.name, applyPending p f.data)) rest
      else ⟨f.indentation, f.name, applyPending p f.data⟩ :: rest := rfl

theorem pop_frames_ge_append (i : Int) : ∀ (ext st : List GroupState)
    (p : Option (String × Entries)), (∀ f ∈ ext, i ≤ f.indentation) →
    pop_frames i p (ext ++ st) = pop_frames i (squash p ext) st := by
  intro ext
  induction ext with
  | nil => intro st p _; rfl
  | cons f rest ih =>
    intro st p hge
    rw [List.cons_append, pop_frames_cons, if_pos (hge f (List.mem_cons_self f rest)),
      squash_cons]
    exact ih st _ (fun x hx => hge x (List.mem_cons_of_mem f hx))

theorem collapse_cons_cons (p : Option (String × Entries)) (f g : GroupState)
    (tail : List GroupState) :
    collapse p (f :: g :: tail) = collapse (some (f.name, applyPending p f.data)) (g :: tail) :=
  rfl

theorem collapse_append : ∀ (ext st : List GroupState) (p : Option (String × Entries)),
    st ≠ [] → collapse p (ext ++ st) = collapse (squash p ext) st := by
  intro ext
  induction ext with
  | nil => intro st p _; rfl
  | cons f rest ih =>
    intro st p hne
    have hne2 : rest ++ st ≠ [] := by
      intro h
      rcases List.append_eq_nil.mp h with ⟨_, h2⟩
      exact hne h2
    cases hr : rest ++ st with
    | nil => exact absurd hr hne2
    | cons g tail =>
      rw [List.cons_append, hr, collapse_cons_cons, ← hr, ih st _ hne, squash_cons]

theorem mk_data (s : String) : String.mk s.data = s := rfl

theorem keyMem_false_iff (m : Entries) (k : String) : keyMem m k = false ↔ k ∉ keysE m := by
  induction m with
  | nil => simp [keyMem, keysE]
  | cons e rest ih =>
    obtain ⟨k1, v1⟩ := e
    by_cases hk : k1 = k
    · subst hk
      simp [keyMem, keysE]
    · simp only [keyMem, List.any_cons] at *
      simp only [keysE, List.map_cons, List.mem_cons] at *
      constructor
      · intro h hc
        rcases Bool.or_eq_false_iff.mp h with ⟨h1, h2⟩
        rcases hc with hc | hc
        · exact hk hc.symm
        · exact (ih.mp h2) hc
      · intro h
        rw [Bool.or_eq_false_iff]
        refine ⟨by simpa using hk, ih.mpr ?_⟩
        intro hc
        exact h (Or.inr hc)

theorem dinsert_not_mem {m : Entries} {k : String} (v : Value) (h : keyMem m k = false) :
    dinsert m k v = m ++ [(k, v)] := by
  induction m with
  | nil => rfl
  | cons e rest ih =>
    obtain ⟨k1, v1⟩ := e
    have hk : ¬ k1 = k := by
      intro hc
      simp [keyMem, hc] at h
    have h2 : keyMem rest k = false := by
      simp only [keyMem, List.any_cons, Bool.or_eq_false_iff] at h
      exact h.2
    unfold dinsert
    rw [if_neg hk, ih h2]
    rfl

theorem escape_head_ok (s : String) (hsp : spacesEscapable s = true) :
    ∃ c cs, (_escape s).data = c :: cs ∧
    pyIsSpace c = false ∧ c ≠ '#' := by
  unfold _escape
  by_cases h0 : s = ""
  · rw [if_pos h0]
    exact ⟨'"', ['"'], rfl, by decide, by decide⟩
  · rw [if_neg h0]
    by_cases h1 : s.data.any escape_characters
    · rw [if_pos h1]
      refine ⟨'"', (s.data.map escapeChar).flatten ++ ['"'], ?_, by decide, by decide⟩
      simp [String.data_append]
    · rw [if_neg h1]
      cases hd : s.data with
      | nil =>
        exfalso
        apply h0
        cases s with
        | mk l => simp at hd; rw [hd]
      | cons c cs =>
        have hc : escape_characters c = false := by
          by_contra hne
          exact h1 (List.any_eq_true.mpr ⟨c, by rw [hd]; exact List.mem_cons_self _ _,
            Bool.of_not_eq_false hne⟩)
        refine ⟨c, cs, rfl, ?_, ?_⟩
        · exact spacesEscapable_spec hsp (by rw [hd]; exact List.mem_cons_self _ _) hc
        · intro hch
          subst hch
          simp [escape_characters, squote] at hc

theorem escape_last_ok (s : String) (hsp : spacesEscapable s = true) :
    ∃ init cl, (_escape s).data = init ++ [cl] ∧
    pyIsSpace cl = false := by
  unfold _escape
  by_cases h0 : s = ""
  · rw [if_pos h0]
    exact ⟨['"'], '"', rfl, by decide⟩
  · rw [if_neg h0]
    by_cases h1 : s.data.any escape_characters
    · rw [if_pos h1]
      refine ⟨'"' :: (s.data.map escapeChar).flatten, '"', ?_, by decide⟩
      simp [String.data_append]
    · rw [if_neg h1]
      rcases List.eq_nil_or_concat s.data with hd | ⟨init, cl, hd0⟩
      · exfalso
        apply h0
        cases s with
        | mk l => simp at hd; rw [hd]
      · have hd : s.data = init ++ [cl] := by rw [hd0, List.concat_eq_append]
        have hc : escape_characters cl = false := by
          by_contra hne
          exact h1 (List.any_eq_true.mpr ⟨cl, by rw [hd]; simp,
            Bool.of_not_eq_false hne⟩)
        refine ⟨init, cl, hd, ?_⟩
        exact spacesEscapable_spec hsp (by rw [hd]; simp) hc

theorem rstrip_append_last (l : List Char) (c : Char) (h : pyIsSpace c = false) :
    rstrip (l ++ [c]) = l ++ [c] := by
  unfold rstrip
  rw [List.reverse_append]
  show (List.dropWhile pyIsSpace (c :: l.reverse)).reverse = l ++ [c]
  rw [List.dropWhile_cons]
  simp only [h]
  rw [if_neg (by simp)]
  rw [List.reverse_cons, List.reverse_reverse]

theorem advance_no_ws (c : Char) (rest : List Char) (h1 : pyIsSpace c = false)
    (h2 : c ≠ '#') : advance_to_next_token (c :: rest) = (0, c :: rest) := by
  unfold advance_to_next_token
  rw [if_neg (by simp [h1]), if_neg h2]

theorem seps_escape : ∀ c ∈ [':', '='], escape_characters c = true := by
  intro c hc
  simp only [List.mem_cons, List.not_mem_nil, or_false, List.mem_singleton] at hc
  rcases hc with rfl | rfl <;> decide

theorem comma_escape : ∀ c ∈ [','], escape_characters c = true := by
  intro c hc
  rw [List.mem_singleton.mp hc]
  decide

theorem token_iterator_nil (d : List Char) (qc : Option Char) :
    token_iterator d [] qc =
      if qc.isSome then .error .missingQuote else .ok ([], []) := by
  rw [token_iterator.eq_def]

theorem token_space_cons (d : List Char) (rest : List Char) (h : ¬ (' ' ∈ d)) :
    token_iterator d (' ' :: rest) none = .ok ([], rest) := by
  rw [token_iterator_cons]
  rw [if_neg (fun hand => h hand.2), if_neg (by decide), if_neg (by decide),
    if_neg (by decide), if_pos (by exact ⟨rfl, by decide⟩)]

theorem token_delim_cons (d : List Char) (c : Char) (rest : List Char) (h : c ∈ d) :
    token_iterator d (c :: rest) none = .ok ([], c :: rest) := by
  rw [token_iterator_cons, if_pos ⟨rfl, h⟩]

theorem token_name_space (name : String) (rest : List Char)
    (hn : spacesEscapable name = true) :
    token_iterator [':', '='] ((_escape name).data ++ (' ' :: rest)) none =
      .ok (name.data, rest) := by
  rw [token_iterator_escape [':', '='] seps_escape (by decide) name (' ' :: rest) hn]
  rw [token_space_cons [':', '='] rest (by decide)]
  simp [Except.map]

theorem token_name_colon (name : String) (hn : spacesEscapable name = true) :
    token_iterator [':', '='] ((_escape name).data ++ [':']) none =
      .ok (name.data, [':']) := by
  rw [token_iterator_escape [':', '='] seps_escape (by decide) name [':'] hn]
  rw [token_delim_cons [':', '='] ':' [] (by decide)]
  simp [Except.map]

theorem parse_values_escape (v : String) (hv : spacesEscapable v = true) :
    parse_values (_escape v).data none = .ok (.scalar v) := by
  unfold parse_values
  have htok : token_iterator [','] ((_escape v).data) none = .ok (v.data, []) := by
    have h := token_iterator_escape [','] comma_escape (by decide) v [] hv
    rw [List.append_nil] at h
    rw [h, token_iterator_nil]
    simp [Except.map]
  simp only [parseValuesF, htok]
  have ha0 : advance_to_next_token ([] : List Char) = (0, []) := rfl
  simp only [ha0, mk_data]

theorem parse_line_rest_absent (name : String) (hname : name ≠ "")
    (hn : spacesEscapable name = true) (n : Nat) :
    parse_line_rest ((_escape name).data ++ [' ', '=']) n = .ok (name, '=', .absent) := by
  unfold parse_line_rest
  rw [show ((_escape name).data ++ [' ', '=']) = (_escape name).data ++ (' ' :: ['=']) from rfl]
  rw [token_name_space name ['='] hn]
  have ha1 : advance_to_next_token ['='] = (0, ['=']) :=
    advance_no_ws '=' [] (by decide) (by decide)
  have ha0 : advance_to_next_token ([] : List Char) = (0, []) := rfl
  simp only [ha1, ha0, mk_data]
  simp [hname]

theorem parse_line_rest_colon (name : String) (hname : name ≠ "")
    (hn : spacesEscapable name = true) (n : Nat) :
    parse_line_rest ((_escape name).data ++ [':']) n = .ok (name, ':', .absent) := by
  unfold parse_line_rest
  rw [token_name_colon name hn]
  have ha1 : advance_to_next_token [':'] = (0, [':']) :=
    advance_no_ws ':' [] (by decide) (by decide)
  have ha0 : advance_to_next_token ([] : List Char) = (0, []) := rfl
  simp only [ha1, ha0, mk_data]
  simp [hname]

theorem parse_line_rest_scalar (name v : String) (hname : name ≠ "")
    (hn : spacesEscapable name = true) (hv : spacesEscapable v = true) (n : Nat) :
    parse_line_rest ((_escape name).data ++ (' ' :: '=' :: ' ' :: (_escape v).data)) n =
      .ok (name, '=', .scalar v) := by
  obtain ⟨c, cs, hc, hcs, hch⟩ := escape_head_ok v hv
  unfold parse_line_rest
  rw [token_name_space name ('=' :: ' ' :: (_escape v).data) hn]
  have hadv : advance_to_next_token ('=' :: ' ' :: (_escape v).data) =
      (0, '=' :: ' ' :: (_escape v).data) := advance_no_ws _ _ (by decide) (by decide)
  have hadv2 : advance_to_next_token (' ' :: (_escape v).data) = (1, (_escape v).data) := by
    unfold advance_to_next_token
    rw [if_pos (by decide)]
    rw [hc, advance_no_ws c cs hcs hch, ← hc]
  have hne : ¬ ((_escape v).data = []) := by
    rw [hc]; simp
  simp only [hadv, hadv2, mk_data]
  simp [hname, hne, parse_values_escape v hv]

/-- The characters following the first element in a serialized list value:
a comma, a space and the next escaped element, repeatedly. -/
def listTail : List String → List Char
  | [] => []
  | v :: vs => ',' :: ' ' :: ((_escape v).data ++ listTail vs)

/-- The characters of a serialized list value without a trailing comma. -/
def listBody : List String → List Char
  | [] => []
  | v :: vs => (_escape v).data ++ listTail vs

/-- The characters of the value part of a serialized list line, with the
trailing comma a one-element list receives. -/
def valueChars (lv : List String) : List Char :=
  if lv.length = 1 then listBody lv ++ [','] else listBody lv

theorem string_eq_of_data {s t : String} (h : s.data = t.data) : s = t := by
  cases s
  cases t
  exact congrArg String.mk h

theorem intercalate_go_data : ∀ (vs : List String) (a : String),
    (String.intercalate.go a ", " (vs.map _escape)).data = a.data ++ listTail vs := by
  intro vs
  induction vs with
  | nil => intro a; simp [String.intercalate.go, listTail]
  | cons v vs ih =>
    intro a
    have hgo : String.intercalate.go a ", " (_escape v :: vs.map _escape) =
        String.intercalate.go (a ++ ", " ++ _escape v) ", " (vs.map _escape) := rfl
    simp only [List.map_cons, hgo, ih, String.data_append, listTail]
    simp [String.data]

theorem intercalate_data (v : String) (vs : List String) :
    (String.intercalate ", " ((v :: vs).map _escape)).data = listBody (v :: vs) := by
  have h : String.intercalate ", " ((v :: vs).map _escape) =
      String.intercalate.go (_escape v) ", " (vs.map _escape) := rfl
  rw [h, intercalate_go_data, listBody]

theorem escape_len (v : String) : 1 ≤ (_escape v).data.length := by
  unfold _escape
  by_cases h0 : v = ""
  · rw [if_pos h0]
    decide
  · rw [if_neg h0]
    by_cases h1 : v.data.any escape_characters
    · rw [if_pos h1]
      simp [String.data_append]
    · rw [if_neg h1]
      cases hd : v.data with
      | nil =>
        exfalso
        apply h0
        cases v with
        | mk l => simp at hd; rw [hd]
      | cons c cs => simp [hd]

theorem token_value_nil (v : String) (hv : spacesEscapable v = true) :
    token_iterator [','] ((_escape v).data) none = .ok (v.data, []) := by
  have h := token_iterator_escape [','] comma_escape (by decide) v [] hv
  rw [List.append_nil] at h
  rw [h, token_iterator_nil]
  simp [Except.map]

theorem token_value_cons (v : String) (rest : List Char) (hv : spacesEscapable v = true) :
    token_iterator [','] ((_escape v).data ++ (',' :: rest)) none = .ok (v.data, ',' :: rest) := by
  rw [token_iterator_escape [','] comma_escape (by decide) v (',' :: rest) hv]
  rw [token_delim_cons [','] ',' rest (by decide)]
  simp [Except.map]

theorem parse_values_go : ∀ (vs : List String) (v : String) (acc : List String) (fuel : Nat),
    spacesEscapable v = true → (∀ w ∈ vs, spacesEscapable w = true) →
    ((_escape v).data ++ listTail vs).length < fuel →
    parseValuesF fuel ((_escape v).data ++ listTail vs) (some acc) =
      .ok (.list (acc ++ v :: vs)) := by
  intro vs
  induction vs with
  | nil =>
    intro v acc fuel hv _ hf
    cases fuel with
    | zero => simp at hf
    | succ f =>
      rw [listTail, List.append_nil]
      simp only [parseValuesF, token_value_nil v hv]
      have ha0 : advance_to_next_token ([] : List Char) = (0, []) := rfl
      simp only [ha0, mk_data]
  | cons w ws ih =>
    intro v acc fuel hv hall hf
    cases fuel with
    | zero => simp at hf
    | succ f =>
      rw [listTail]
      have htv := fun rest => token_value_cons v rest hv
      simp only [parseValuesF, htv]
      have hw : spacesEscapable w = true := hall w (List.mem_cons_self _ _)
      have ha1 : advance_to_next_token (',' :: ' ' :: ((_escape w).data ++ listTail ws)) =
          (0, ',' :: ' ' :: ((_escape w).data ++ listTail ws)) :=
        advance_no_ws _ _ (by decide) (by decide)
      obtain ⟨c, cs, hc, hcs, hch⟩ := escape_head_ok w hw
      have ha2 : advance_to_next_token (' ' :: ((_escape w).data ++ listTail ws)) =
          (1, (_escape w).data ++ listTail ws) := by
        unfold advance_to_next_token
        rw [if_pos (by decide)]
        rw [hc, List.cons_append, advance_no_ws c (cs ++ listTail ws) hcs hch, ← List.cons_append, ← hc]
      have hne : ((_escape w).data ++ listTail ws).isEmpty = false := by
        rw [hc]
        simp
      have hlen : ((_escape w).data ++ listTail ws).length < f := by
        have h1 := escape_len v
        simp only [listTail, List.length_append, List.length_cons] at hf ⊢
        omega
      simp only [ha1, ha2, mk_data, hne]
      rw [if_pos trivial, if_neg (by simp)]
      simp only [Option.getD_some]
      rw [ih w (acc ++ [v]) f hw (fun x hx => hall x (List.mem_cons_of_mem _ hx)) hlen]
      simp

theorem parse_values_vlist (v : String) (vs : List String)
    (hall : ∀ x ∈ v :: vs, spacesEscapable x = true) :
    parse_values (valueChars (v :: vs)) none = .ok (.list (v :: vs)) := by
  have hv0 : spacesEscapable v = true := hall v (List.mem_cons_self _ _)
  cases vs with
  | nil =>
    have hv : valueChars [v] = (_escape v).data ++ (',' :: []) := by
      simp [valueChars, listBody, listTail]
    rw [hv]
    unfold parse_values
    have hlen : ((_escape v).data ++ (',' :: [])).length = (_escape v).data.length + 1 := by
      simp
    have htv := fun rest => token_value_cons v rest hv0
    simp only [hlen, parseValuesF, htv]
    have ha1 : advance_to_next_token (',' :: ([] : List Char)) = (0, [',']) :=
      advance_no_ws _ _ (by decide) (by decide)
    have ha0 : advance_to_next_token ([] : List Char) = (0, []) := rfl
    simp only [ha1, ha0, mk_data]
    rw [if_pos trivial, if_pos (show ([] : List Char).isEmpty = true from rfl)]
    rfl
  | cons w ws =>
    have hv : valueChars (v :: w :: ws) =
        (_escape v).data ++ listTail (w :: ws) := by
      simp [valueChars, listBody]
    rw [hv, listTail]
    unfold parse_values
    have htv := fun rest => token_value_cons v rest hv0
    simp only [parseValuesF, htv]
    have hw : spacesEscapable w = true := hall w (List.mem_cons_of_mem _ (List.mem_cons_self _ _))
    have ha1 : advance_to_next_token (',' :: ' ' :: ((_escape w).data ++ listTail ws)) =
        (0, ',' :: ' ' :: ((_escape w).data ++ listTail ws)) :=
      advance_no_ws _ _ (by decide) (by decide)
    obtain ⟨c, cs, hc, hcs, hch⟩ := escape_head_ok w hw
    have ha2 : advance_to_next_token (' ' :: ((_escape w).data ++ listTail ws)) =
        (1, (_escape w).data ++ listTail ws) := by
      unfold advance_to_next_token
      rw [if_pos (by decide)]
      rw [hc, List.cons_append, advance_no_ws c (cs ++ listTail ws) hcs hch, ← List.cons_append, ← hc]
    have hne : ((_escape w).data ++ listTail ws).isEmpty = false := by
      rw [hc]
      simp
    have hlen : ((_escape w).data ++ listTail ws).length <
        ((_escape v).data ++ (',' :: ' ' :: ((_escape w).data ++ listTail ws))).length := by
      simp only [List.length_append, List.length_cons]
      omega
    simp only [ha1, ha2, mk_data, hne]
    rw [if_pos trivial, if_neg (by simp)]
    simp only [Option.getD_none, List.nil_append]
    rw [parse_values_go ws w [v] _ hw
      (fun x hx => hall x (List.mem_cons_of_mem _ (List.mem_cons_of_mem _ hx))) hlen]
    simp

theorem valueChars_head (v : String) (vs : List String) (hv : spacesEscapable v = true) :
    ∃ c cs, valueChars (v :: vs) = c :: cs ∧ pyIsSpace c = false ∧ c ≠ '#' := by
  obtain ⟨c, cs, hc, hcs, hch⟩ := escape_head_ok v hv
  cases vs with
  | nil =>
    refine ⟨c, cs ++ [','], ?_, hcs, hch⟩
    simp [valueChars, listBody, listTail, hc]
  | cons w ws =>
    refine ⟨c, cs ++ listTail (w :: ws), ?_, hcs, hch⟩
    have h1 : valueChars (v :: w :: ws) = (_escape v).data ++ listTail (w :: ws) := by
      simp [valueChars, listBody]
    rw [h1, hc, List.cons_append]

theorem parse_line_rest_vlist (name v : String) (vs : List String) (hname : name ≠ "")
    (hn : spacesEscapable name = true) (hall : ∀ x ∈ v :: vs, spacesEscapable x = true)
    (n : Nat) :
    parse_line_rest ((_escape name).data ++ (' ' :: '=' :: ' ' :: valueChars (v :: vs))) n =
      .ok (name, '=', .list (v :: vs)) := by
  obtain ⟨c, cs, hc, hcs, hch⟩ := valueChars_head v vs (hall v (List.mem_cons_self _ _))
  unfold parse_line_rest
  rw [token_name_space name ('=' :: ' ' :: valueChars (v :: vs)) hn]
  have hadv : advance_to_next_token ('=' :: ' ' :: valueChars (v :: vs)) =
      (0, '=' :: ' ' :: valueChars (v :: vs)) := advance_no_ws _ _ (by decide) (by decide)
  have hadv2 : advance_to_next_token (' ' :: valueChars (v :: vs)) = (1, valueChars (v :: vs)) := by
    unfold advance_to_next_token
    rw [if_pos (by decide)]
    rw [hc, advance_no_ws c cs hcs hch, ← hc]
  have hne : ¬ (valueChars (v :: vs) = []) := by
    rw [hc]; simp
  simp only [hadv, hadv2, mk_data]
  simp [hname, hne, parse_values_vlist v vs hall]

theorem listTail_last : ∀ (ws : List String) (w : String), spacesEscapable w = true →
    (∀ x ∈ ws, spacesEscapable x = true) →
    ∃ init cl, listTail (w :: ws) = init ++ [cl] ∧ pyIsSpace cl = false := by
  intro ws
  induction ws with
  | nil =>
    intro w hw _
    obtain ⟨init, cl, hl, hcl⟩ := escape_last_ok w hw
    refine ⟨',' :: ' ' :: init, cl, ?_, hcl⟩
    simp [listTail, hl]
  | cons x xs ih =>
    intro w _ hall
    obtain ⟨init, cl, hl, hcl⟩ := ih x (hall x (List.mem_cons_self _ _))
      (fun y hy => hall y (List.mem_cons_of_mem _ hy))
    refine ⟨',' :: ' ' :: ((_escape w).data ++ init), cl, ?_, hcl⟩
    rw [listTail, hl]
    simp

theorem valueChars_last (v : String) (vs : List String)
    (hall : ∀ x ∈ v :: vs, spacesEscapable x = true) :
    ∃ init cl, valueChars (v :: vs) = init ++ [cl] ∧ pyIsSpace cl = false := by
  cases vs with
  | nil =>
    refine ⟨listBody [v], ',', ?_, by decide⟩
    simp [valueChars]
  | cons w ws =>
    obtain ⟨init, cl, hl, hcl⟩ := listTail_last ws w
      (hall w (List.mem_cons_of_mem _ (List.mem_cons_self _ _)))
      (fun y hy => hall y (List.mem_cons_of_mem _ (List.mem_cons_of_mem _ hy)))
    refine ⟨(_escape v).data ++ init, cl, ?_, hcl⟩
    have h1 : valueChars (v :: w :: ws) = (_escape v).data ++ listTail (w :: ws) := by
      simp [valueChars, listBody]
    rw [h1, hl, List.append_assoc]

theorem parse_built_line (k : Nat) (l : String) (n : Nat) (r : String × Char × LineValue)
    (hhead : ∃ c cs, l.data = c :: cs ∧ pyIsSpace c = false ∧ c ≠ '#')
    (hlast : ∃ init cl, l.data = init ++ [cl] ∧ pyIsSpace cl = false)
    (hrest : parse_line_rest l.data n = .ok r) :
    _parse_line (String.mk (List.replicate k ' ') ++ l) n =
      .ok ⟨k, some r.1, some r.2.1, r.2.2⟩ := by
  obtain ⟨c, cs, hc, hcs, hch⟩ := hhead
  obtain ⟨init, cl, hl, hcl⟩ := hlast
  rw [parse_line_shifted]
  have hr : rstrip l.data = l.data := by
    rw [hl, rstrip_append_last init cl hcl]
  have hadv : advance_to_next_token l.data = (0, l.data) := by
    rw [hc]
    exact advance_no_ws c cs hcs hch
  have hne : l.data.isEmpty = false := by
    rw [hc]
    rfl
  simp only [hr, hadv, hrest, hne]
  simp

theorem parse_absent_line (d : Nat) (name : String) (hname : name ≠ "")
    (hn : spacesEscapable name = true) (n : Nat) :
    _parse_line (String.mk (List.replicate (4 * d) ' ') ++ _escape name ++ " =") n =
      .ok ⟨4 * d, some name, some '=', .absent⟩ := by
  have heq : String.mk (List.replicate (4 * d) ' ') ++ _escape name ++ " =" =
      String.mk (List.replicate (4 * d) ' ') ++ (_escape name ++ " =") := by
    apply string_eq_of_data
    simp [String.data_append]
  rw [heq]
  have hbody : (_escape name ++ " =").data = (_escape name).data ++ [' ', '='] := by
    simp [String.data_append]
  obtain ⟨c, cs, hc, hcs, hch⟩ := escape_head_ok name hn
  exact parse_built_line (4 * d) (_escape name ++ " =") n (name, '=', .absent)
    ⟨c, cs ++ [' ', '='], by rw [hbody, hc, List.cons_append], hcs, hch⟩
    ⟨(_escape name).data ++ [' '], '=', by rw [hbody]; simp, by decide⟩
    (by rw [hbody]; exact parse_line_rest_absent name hname hn n)

theorem parse_section_line (d : Nat) (name : String) (hname : name ≠ "")
    (hn : spacesEscapable name = true) (n : Nat) :
    _parse_line (String.mk (List.replicate (4 * d) ' ') ++ _escape name ++ ":") n =
      .ok ⟨4 * d, some name, some ':', .absent⟩ := by
  have heq : String.mk (List.replicate (4 * d) ' ') ++ _escape name ++ ":" =
      String.mk (List.replicate (4 * d) ' ') ++ (_escape name ++ ":") := by
    apply string_eq_of_data
    simp [String.data_append]
  rw [heq]
  have hbody : (_escape name ++ ":").data = (_escape name).data ++ [':'] := by
    simp [String.data_append]
  obtain ⟨c, cs, hc, hcs, hch⟩ := escape_head_ok name hn
  exact parse_built_line (4 * d) (_escape name ++ ":") n (name, ':', .absent)
    ⟨c, cs ++ [':'], by rw [hbody, hc, List.cons_append], hcs, hch⟩
    ⟨(_escape name).data, ':', by rw [hbody], by decide⟩
    (by rw [hbody]; exact parse_line_rest_colon name hname hn n)

theorem parse_scalar_line (d : Nat) (name v : String) (hname : name ≠ "")
    (hn : spacesEscapable name = true) (hv : spacesEscapable v = true) (n : Nat) :
    _parse_line (String.mk (List.replicate (4 * d) ' ') ++ _escape name ++ " = " ++ _escape v) n =
      .ok ⟨4 * d, some name, some '=', .scalar v⟩ := by
  have heq : String.mk (List.replicate (4 * d) ' ') ++ _escape name ++ " = " ++ _escape v =
      String.mk (List.replicate (4 * d) ' ') ++ (_escape name ++ " = " ++ _escape v) := by
    apply string_eq_of_data
    simp [String.data_append]
  rw [heq]
  have hbody : (_escape name ++ " = " ++ _escape v).data =
      (_escape name).data ++ (' ' :: '=' :: ' ' :: (_escape v).data) := by
    simp [String.data_append]
  obtain ⟨c, cs, hc, hcs, hch⟩ := escape_head_ok name hn
  obtain ⟨init, cl, hl, hcl⟩ := escape_last_ok v hv
  exact parse_built_line (4 * d) (_escape name ++ " = " ++ _escape v) n (name, '=', .scalar v)
    ⟨c, cs ++ (' ' :: '=' :: ' ' :: (_escape v).data), by rw [hbody, hc, List.cons_append], hcs, hch⟩
    ⟨(_escape name).data ++ (' ' :: '=' :: ' ' :: init), cl, by rw [hbody, hl]; simp, hcl⟩
    (by rw [hbody]; exact parse_line_rest_scalar name v hname hn hv n)

theorem parse_vlist_line (d : Nat) (name v : String) (vs : List String) (hname : name ≠ "")
    (hn : spacesEscapable name = true) (hall : ∀ x ∈ v :: vs, spacesEscapable x = true)
    (n : Nat) :
    _parse_line (String.mk (List.replicate (4 * d) ' ') ++ _escape name ++ " = " ++
        (if (v :: vs).length = 1 then String.intercalate ", " ((v :: vs).map _escape) ++ ","
         else String.intercalate ", " ((v :: vs).map _escape))) n =
      .ok ⟨4 * d, some name, some '=', .list (v :: vs)⟩ := by
  have hvdata : (if (v :: vs).length = 1 then String.intercalate ", " ((v :: vs).map _escape) ++ ","
      else String.intercalate ", " ((v :: vs).map _escape)).data = valueChars (v :: vs) := by
    cases vs with
    | nil =>
      rw [if_pos (show ([v] : List String).length = 1 from rfl)]
      show (String.intercalate ", " ([v].map _escape) ++ ",").data = _
      rw [String.data_append, intercalate_data v []]
      have h2 : valueChars [v] = listBody [v] ++ [','] := by
        simp [valueChars]
      rw [h2]
    | cons w ws =>
      rw [if_neg (by simp)]
      rw [intercalate_data v (w :: ws)]
      simp [valueChars, listBody]
  have hveq : (if (v :: vs).length = 1 then String.intercalate ", " ((v :: vs).map _escape) ++ ","
      else String.intercalate ", " ((v :: vs).map _escape)) = String.mk (valueChars (v :: vs)) := by
    apply string_eq_of_data
    rw [hvdata]
  rw [hveq]
  have heq : String.mk (List.replicate (4 * d) ' ') ++ _escape name ++ " = " ++
      String.mk (valueChars (v :: vs)) =
      String.mk (List.replicate (4 * d) ' ') ++
        String.mk ((_escape name).data ++ (' ' :: '=' :: ' ' :: valueChars (v :: vs))) := by
    apply string_eq_of_data
    simp [String.data_append]
  rw [heq]
  have hbody : (String.mk ((_escape name).data ++ (' ' :: '=' :: ' ' :: valueChars (v :: vs)))).data =
      (_escape name).data ++ (' ' :: '=' :: ' ' :: valueChars (v :: vs)) := rfl
  obtain ⟨c, cs, hc, hcs, hch⟩ := escape_head_ok name hn
  obtain ⟨init, cl, hl, hcl⟩ := valueChars_last v vs hall
  exact parse_built_line (4 * d) _ n (name, '=', .list (v :: vs))
    ⟨c, cs ++ (' ' :: '=' :: ' ' :: valueChars (v :: vs)), by rw [hbody, hc, List.cons_append], hcs, hch⟩
    ⟨(_escape name).data ++ (' ' :: '=' :: ' ' :: init), cl, by rw [hbody, hl]; simp, hcl⟩
    (by rw [hbody]; exact parse_line_rest_vlist name v vs hname hn hall n)

/-- The non-section entries of one dict level, in order. -/
def settingsOf (es : Entries) : Entries := es.filter (fun e => !e.2.isMapB)

/-- The section entries of one dict level, in order. -/
def sectionsOf (es : Entries) : Entries := es.filter (fun e => e.2.isMapB)

theorem partitionSettings_eq (es : Entries) :
    partitionSettings es = settingsOf es ++ sectionsOf es := rfl

/-- The line that build_entries emits for one non-section entry. -/
def settingLine (d : Nat) (e : String × Value) : String :=
  match e.2 with
  | .absent => String.mk (List.replicate (4 * d) ' ') ++ _escape e.1 ++ " ="
  | .str v => String.mk (List.replicate (4 * d) ' ') ++ _escape e.1 ++ " = " ++ _escape v
  | .vlist l => String.mk (List.replicate (4 * d) ' ') ++ _escape e.1 ++ " = " ++
      (if l.length = 1 then String.intercalate ", " (l.map _escape) ++ ","
       else String.intercalate ", " (l.map _escape))
  | _ => ""

/-- Loading the serialized lines of a nested group from a fresh frame
turns that frame's dict into the canonical form of the group, leaving any
still-open deeper frames on the stack above it. -/
def ChildOk (d : Nat) (sub : List String) (m : Entries) : Prop :=
  ∀ (st : List GroupState) (rest : List String) (n : Nat),
    st ≠ [] → topIndent st < ((4 * (d + 1) : Nat) : Int) → topData st = [] →
    ∃ ext D2,
      load_lines_go (sub ++ rest) n st = load_lines_go rest (n + sub.length) (ext ++ setTop st D2) ∧
      (∀ f ∈ ext, ((4 * (d + 1) : Nat) : Int) ≤ f.indentation) ∧
      applyPending (squash none ext) D2 = canonEntries m

/-- The group lines build_entries emits for the section entries of one
level: a header, the recursively built block, and a blank line for each,
with the block known to load back to the canonical child dict. -/
inductive SecBuilt (d : Nat) : Entries → List String → Prop where
  | nil : SecBuilt d [] []
  | cons {k : String} {m : Entries} {sub g : List String} {rest : Entries} :
      k ≠ "" → spacesEscapable k = true → ChildOk d sub m → SecBuilt d rest g →
      SecBuilt d ((k, Value.map m) :: rest)
        (((String.mk (List.replicate (4 * d) ' ') ++ _escape k ++ ":") :: (sub ++ [""])) ++ g)

theorem keyMem_append (a b : Entries) (k : String) :
    keyMem (a ++ b) k = (keyMem a k || keyMem b k) := by
  simp [keyMem, List.any_append]

theorem entriesSaveWF_mem {es : Entries} (h : entriesSaveWF es = true) :
    ∀ e ∈ es, e.1 ≠ "" ∧ spacesEscapable e.1 = true ∧ Value.saveWF e.2 = true := by
  induction es with
  | nil => intro e he; cases he
  | cons f rest ih =>
    obtain ⟨k, v⟩ := f
    intro e he
    have h' := h
    unfold entriesSaveWF at h'
    simp only [Bool.and_eq_true, Bool.not_eq_true'] at h'
    obtain ⟨⟨⟨⟨⟨hk, _⟩, hsp⟩, _⟩, hv⟩, hrest⟩ := h'
    rcases List.mem_cons.mp he with he | he
    · subst he
      refine ⟨?_, hsp, hv⟩
      intro hc
      simp only at hc
      rw [hc] at hk
      simp at hk
    · exact ih hrest e he

theorem entriesSaveWF_pairwise {es : Entries} (h : entriesSaveWF es = true) :
    es.Pairwise (fun a b => a.1 ≠ b.1) := by
  induction es with
  | nil => exact List.Pairwise.nil
  | cons f rest ih =>
    obtain ⟨k, v⟩ := f
    have h' := h
    unfold entriesSaveWF at h'
    simp only [Bool.and_eq_true, Bool.not_eq_true'] at h'
    obtain ⟨⟨⟨⟨⟨_, _⟩, _⟩, hmem⟩, _⟩, hrest⟩ := h'
    refine List.Pairwise.cons ?_ (ih hrest)
    intro b hb hc
    simp only at hc
    have : k ∈ keysE rest := by
      rw [hc]
      exact List.mem_map.mpr ⟨b, hb, rfl⟩
    exact (keyMem_false_iff rest k).mp hmem this

theorem entriesSaveWF_map {m : Entries} (h : Value.saveWF (.map m) = true) :
    entriesSaveWF m = true := h

theorem parse_settingLine (d : Nat) (e : String × Value) (hname : e.1 ≠ "")
    (hn : spacesEscapable e.1 = true)
    (hwf : Value.saveWF e.2 = true) (hnm : e.2.isMapB = false) (n : Nat) :
    ∃ lv, _parse_line (settingLine d e) n = .ok ⟨4 * d, some e.1, some '=', lv⟩ ∧
      lv.toValue = e.2 := by
  obtain ⟨k, v⟩ := e
  simp only at hname hn hwf hnm ⊢
  cases v with
  | absent => exact ⟨.absent, parse_absent_line d k hname hn n, rfl⟩
  | str s => exact ⟨.scalar s, parse_scalar_line d k s hname hn hwf n, rfl⟩
  | vlist l =>
    cases l with
    | nil => simp [Value.saveWF] at hwf
    | cons v vs =>
      have hall : ∀ x ∈ v :: vs, spacesEscapable x = true := by
        have h2 : ((v :: vs).all spacesEscapable) = true := by
          have h3 : Value.saveWF (Value.vlist (v :: vs)) =
              (!(v :: vs).isEmpty && (v :: vs).all spacesEscapable) := rfl
          rw [h3, Bool.and_eq_true] at hwf
          exact hwf.2
        exact fun x hx => List.all_eq_true.mp h2 x hx
      exact ⟨.list (v :: vs), parse_vlist_line d k v vs hname hn hall n, rfl⟩
  | other t => simp [Value.saveWF] at hwf
  | map m => simp [Value.isMapB] at hnm

theorem load_go_cons (l : String) (ls : List String) (n : Nat) (st : List GroupState) :
    load_lines_go (l :: ls) n st =
      match _parse_line l n with
      | .error e => .error e
      | .ok pl => load_lines_go ls (n + 1) (loadStep st pl) := rfl

theorem parse_blank_line (n : Nat) : _parse_line "" n = .ok ⟨0, none, none, .absent⟩ := rfl

theorem loadStep_nameless (st : List GroupState) (i : Nat) :
    loadStep st ⟨i, none, none, .absent⟩ = st := rfl

theorem loadStep_assign {st : List GroupState} (hne : st ≠ []) {i : Nat}
    (hind : topIndent st < (i : Int)) (name : String) (lv : LineValue) :
    loadStep st ⟨i, some name, some '=', lv⟩ =
      setTop st (dinsert (topData st) name lv.toValue) := by
  cases st with
  | nil => exact absurd rfl hne
  | cons f restS =>
    show (let stack := pop_frames ((i : Nat) : Int) none (f :: restS);
      if (some '=' : Option Char) = some ':' then ⟨((i : Nat) : Int), name, []⟩ :: stack
      else if (some '=' : Option Char) = some '=' then
        match stack with
        | [] => []
        | f :: rest => ⟨f.indentation, f.name, dinsert f.data name lv.toValue⟩ :: rest
      else stack) = _
    rw [pop_frames_stop (by simp) hind none]
    rw [if_neg (by decide), if_pos rfl]
    rfl

theorem loadStep_section_ext (ext0 : List GroupState) {st : List GroupState} (hne : st ≠ [])
    {i : Nat} (hind : topIndent st < (i : Int))
    (hext : ∀ f ∈ ext0, (i : Int) ≤ f.indentation) (D0 : Entries) (name : String) :
    loadStep (ext0 ++ setTop st D0) ⟨i, some name, some ':', .absent⟩ =
      ⟨(i : Int), name, []⟩ :: setTop st (applyPending (squash none ext0) D0) := by
  show (let stack := pop_frames ((i : Nat) : Int) none (ext0 ++ setTop st D0);
    if (some ':' : Option Char) = some ':' then ⟨((i : Nat) : Int), name, []⟩ :: stack
    else if (some ':' : Option Char) = some '=' then
      match stack with
      | [] => []
      | f :: rest => ⟨f.indentation, f.name, dinsert f.data name LineValue.absent.toValue⟩ :: rest
    else stack) = _
  rw [pop_frames_ge_append _ ext0 (setTop st D0) none hext]
  rw [pop_frames_stop (setTop_nonempty hne D0) (by rwa [topIndent_setTop]) (squash none ext0)]
  rw [topData_setTop hne, setTop_setTop]
  rw [if_pos rfl]

theorem pairwise_filter {es : Entries} (p : String × Value → Bool)
    (h : es.Pairwise (fun a b => a.1 ≠ b.1)) :
    (es.filter p).Pairwise (fun a b => a.1 ≠ b.1) :=
  List.Pairwise.sublist (List.filter_sublist es) h

theorem sections_not_in_settings {es : Entries} (h : es.Pairwise (fun a b => a.1 ≠ b.1)) :
    ∀ k ∈ keysE (sectionsOf es), keyMem (settingsOf es) k = false := by
  induction es with
  | nil => intro k hk; cases hk
  | cons f rest ih =>
    obtain ⟨k1, v1⟩ := f
    have htail := ih (List.Pairwise.sublist (List.sublist_cons_self _ _) h)
    intro k hk
    rcases List.pairwise_cons.mp h with ⟨hhead, _⟩
    by_cases hm : Value.isMapB v1
    · have hsec : sectionsOf ((k1, v1) :: rest) = (k1, v1) :: sectionsOf rest := by
        simp [sectionsOf, List.filter_cons, hm]
      have hset : settingsOf ((k1, v1) :: rest) = settingsOf rest := by
        simp [settingsOf, List.filter_cons, hm]
      rw [hsec] at hk
      rw [hset]
      rcases List.mem_cons.mp hk with hk | hk
      · rw [keyMem_false_iff]
        intro hc
        have hk1 : k = k1 := hk
        subst hk1
        rcases List.mem_map.mp hc with ⟨b, hb, hb1⟩
        exact hhead b (List.mem_of_mem_filter hb) hb1.symm
      · exact htail k hk
    · have hsec : sectionsOf ((k1, v1) :: rest) = sectionsOf rest := by
        simp [sectionsOf, List.filter_cons, hm]
      have hset : settingsOf ((k1, v1) :: rest) = (k1, v1) :: settingsOf rest := by
        simp [settingsOf, List.filter_cons, hm]
      rw [hsec] at hk
      rw [hset]
      rw [keyMem_false_iff]
      intro hc
      simp only [keysE, List.map_cons, List.mem_cons] at hc
      rcases hc with hc | hc
      · subst hc
        rcases List.mem_map.mp hk with ⟨b, hb, hb1⟩
        exact hhead b (List.mem_of_mem_filter hb) hb1.symm
      · exact (keyMem_false_iff _ _).mp (htail k hk) hc

theorem build_entries_cons_absent (recurse : Entries → Nat → Except FileBuilderError (List String))
    (d : Nat) (name : String) (rest : Entries) :
    build_entries recurse d ((name, Value.absent) :: rest) =
      match build_entries recurse d rest with
      | .error e => .error e
      | .ok (s, g) => .ok ((String.mk (List.replicate (4 * d) ' ') ++ _escape name ++ " =") :: s, g) := rfl

theorem build_entries_cons_str (recurse : Entries → Nat → Except FileBuilderError (List String))
    (d : Nat) (name v : String) (rest : Entries) :
    build_entries recurse d ((name, Value.str v) :: rest) =
      match build_entries recurse d rest with
      | .error e => .error e
      | .ok (s, g) =>
        .ok ((String.mk (List.replicate (4 * d) ' ') ++ _escape name ++ " = " ++ _escape v) :: s, g) := rfl

theorem build_entries_cons_vlist (recurse : Entries → Nat → Except FileBuilderError (List String))
    (d : Nat) (name : String) (l : List String) (rest : Entries) :
    build_entries recurse d ((name, Value.vlist l) :: rest) =
      match build_entries recurse d rest with
      | .error e => .error e
      | .ok (s, g) =>
        .ok ((String.mk (List.replicate (4 * d) ' ') ++ _escape name ++ " = " ++
          (if l.length = 1 then String.intercalate ", " (l.map _escape) ++ ","
           else String.intercalate ", " (l.map _escape))) :: s, g) := rfl

theorem build_entries_cons_map (recurse : Entries → Nat → Except FileBuilderError (List String))
    (d : Nat) (name : String) (m : Entries) (rest : Entries) :
    build_entries recurse d ((name, Value.map m) :: rest) =
      match recurse m (d + 1) with
      | .error e => .error e
      | .ok sub =>
        match build_entries recurse d rest with
        | .error e => .error e
        | .ok (s, g) =>
          .ok (s, ((String.mk (List.replicate (4 * d) ' ') ++ _escape name ++ ":") ::
            (sub ++ [""])) ++ g) := rfl

theorem buildGroupF_succ (fuel : Nat) (group : Entries) (ind : Nat) :
    buildGroupF (fuel + 1) group ind =
      match build_entries (buildGroupF fuel) ind (sortEntries group) with
      | .error e => .error e
      | .ok (s, g) => .ok (s ++ g) := rfl

theorem build_split (fuel d : Nat) : ∀ (es : Entries),
    (∀ e ∈ es, e.1 ≠ "" ∧ spacesEscapable e.1 = true ∧ Value.saveWF e.2 = true) →
    (∀ k m, (k, Value.map m) ∈ es → ∃ sub, buildGroupF fuel m (d + 1) = .ok sub ∧ ChildOk d sub m) →
    ∃ s g, build_entries (buildGroupF fuel) d es = .ok (s, g) ∧
      s = (settingsOf es).map (settingLine d) ∧ SecBuilt d (sectionsOf es) g := by
  intro es
  induction es with
  | nil => intro _ _; exact ⟨[], [], rfl, rfl, SecBuilt.nil⟩
  | cons e rest ih =>
    intro hmem hch
    obtain ⟨name, v⟩ := e
    obtain ⟨s, g, hbe, hs, hsec⟩ :=
      ih (fun x hx => hmem x (List.mem_cons_of_mem _ hx))
        (fun k m hkm => hch k m (List.mem_cons_of_mem _ hkm))
    have hname : name ≠ "" := (hmem (name, v) (List.mem_cons_self _ _)).1
    have hks : spacesEscapable name = true := (hmem (name, v) (List.mem_cons_self _ _)).2.1
    have hwf : Value.saveWF v = true := (hmem (name, v) (List.mem_cons_self _ _)).2.2
    cases v with
    | absent =>
      have hset : settingsOf ((name, Value.absent) :: rest) =
          (name, Value.absent) :: settingsOf rest := by
        simp [settingsOf, List.filter_cons, Value.isMapB]
      have hsc : sectionsOf ((name, Value.absent) :: rest) = sectionsOf rest := by
        simp [sectionsOf, List.filter_cons, Value.isMapB]
      refine ⟨settingLine d (name, Value.absent) :: s, g, ?_, ?_, ?_⟩
      · rw [build_entries_cons_absent, hbe]
        rfl
      · rw [hset, List.map_cons, hs]
      · rw [hsc]; exact hsec
    | str vs =>
      have hset : settingsOf ((name, Value.str vs) :: rest) =
          (name, Value.str vs) :: settingsOf rest := by
        simp [settingsOf, List.filter_cons, Value.isMapB]
      have hsc : sectionsOf ((name, Value.str vs) :: rest) = sectionsOf rest := by
        simp [sectionsOf, List.filter_cons, Value.isMapB]
      refine ⟨settingLine d (name, Value.str vs) :: s, g, ?_, ?_, ?_⟩
      · rw [build_entries_cons_str, hbe]
        rfl
      · rw [hset, List.map_cons, hs]
      · rw [hsc]; exact hsec
    | vlist l =>
      have hset : settingsOf ((name, Value.vlist l) :: rest) =
          (name, Value.vlist l) :: settingsOf rest := by
        simp [settingsOf, List.filter_cons, Value.isMapB]
      have hsc : sectionsOf ((name, Value.vlist l) :: rest) = sectionsOf rest := by
        simp [sectionsOf, List.filter_cons, Value.isMapB]
      refine ⟨settingLine d (name, Value.vlist l) :: s, g, ?_, ?_, ?_⟩
      · rw [build_entries_cons_vlist, hbe]
        rfl
      · rw [hset, List.map_cons, hs]
      · rw [hsc]; exact hsec
    | other t => simp [Value.saveWF] at hwf
    | map m =>
      obtain ⟨sub, hsub, hco⟩ := hch name m (List.mem_cons_self _ _)
      have hset : settingsOf ((name, Value.map m) :: rest) = settingsOf rest := by
        simp [settingsOf, List.filter_cons, Value.isMapB]
      have hsc : sectionsOf ((name, Value.map m) :: rest) =
          (name, Value.map m) :: sectionsOf rest := by
        simp [sectionsOf, List.filter_cons, Value.isMapB]
      refine ⟨s, ((String.mk (List.replicate (4 * d) ' ') ++ _escape name ++ ":") ::
        (sub ++ [""])) ++ g, ?_, ?_, ?_⟩
      · rw [build_entries_cons_map, hsub, hbe]
      · rw [hset, hs]
      · rw [hsc]
        exact SecBuilt.cons hname hks hco hsec

theorem load_go_settings (d : Nat) : ∀ (setts : Entries) (st : List GroupState)
    (rest : List String) (n : Nat), st ≠ [] → topIndent st < ((4 * d : Nat) : Int) →
    (∀ e ∈ setts, e.1 ≠ "" ∧ spacesEscapable e.1 = true ∧ Value.saveWF e.2 = true ∧
      e.2.isMapB = false) →
    (∀ k ∈ keysE setts, keyMem (topData st) k = false) →
    setts.Pairwise (fun a b => a.1 ≠ b.1) →
    load_lines_go (setts.map (settingLine d) ++ rest) n st =
      load_lines_go rest (n + setts.length) (setTop st (topData st ++ setts)) := by
  intro setts
  induction setts with
  | nil =>
    intro st rest n hne _ _ _ _
    rw [List.map_nil, List.nil_append, List.length_nil, Nat.add_zero, List.append_nil,
      setTop_topData hne]
  | cons e setts ih =>
    intro st rest n hne hind hprops hfresh hdist
    obtain ⟨hn1, hsp1, hwf1, hnm1⟩ := hprops e (List.mem_cons_self _ _)
    obtain ⟨lv, hparse, htv⟩ := parse_settingLine d e hn1 hsp1 hwf1 hnm1 n
    rw [List.map_cons, List.cons_append, load_go_cons, hparse]
    show load_lines_go (List.map (settingLine d) setts ++ rest) (n + 1)
        (loadStep st ⟨4 * d, some e.1, some '=', lv⟩) = _
    rw [loadStep_assign hne hind e.1 lv, htv]
    have hfr : keyMem (topData st) e.1 = false :=
      hfresh e.1 (List.mem_map.mpr ⟨e, List.mem_cons_self _ _, rfl⟩)
    have hdi : dinsert (topData st) e.1 e.2 = topData st ++ [(e.1, e.2)] :=
      dinsert_not_mem e.2 hfr
    rw [hdi]
    have hne2 : setTop st (topData st ++ [(e.1, e.2)]) ≠ [] := setTop_nonempty hne _
    have hind2 : topIndent (setTop st (topData st ++ [(e.1, e.2)])) < ((4 * d : Nat) : Int) := by
      rwa [topIndent_setTop]
    have hprops2 : ∀ x ∈ setts, x.1 ≠ "" ∧ spacesEscapable x.1 = true ∧
        Value.saveWF x.2 = true ∧ x.2.isMapB = false :=
      fun x hx => hprops x (List.mem_cons_of_mem _ hx)
    have hdist2 : setts.Pairwise (fun a b => a.1 ≠ b.1) :=
      (List.pairwise_cons.mp hdist).2
    have hfresh2 : ∀ k ∈ keysE setts,
        keyMem (topData (setTop st (topData st ++ [(e.1, e.2)]))) k = false := by
      intro k hk
      rw [topData_setTop hne, keyMem_append]
      have h1 : keyMem (topData st) k = false :=
        hfresh k (by
          simp only [keysE, List.map_cons]
          exact List.mem_cons_of_mem _ hk)
      have h2 : keyMem [(e.1, e.2)] k = false := by
        rcases List.mem_map.mp hk with ⟨b, hb, hb1⟩
        have hne3 : e.1 ≠ k := by
          rw [← hb1]
          exact (List.pairwise_cons.mp hdist).1 b hb
        simp [keyMem, hne3]
      rw [h1, h2]
      rfl
    rw [ih (setTop st (topData st ++ [(e.1, e.2)])) rest (n + 1) hne2 hind2 hprops2 hfresh2 hdist2]
    rw [topData_setTop hne, setTop_setTop, List.append_assoc]
    have hl : n + 1 + setts.length = n + (setts.length + 1) := by omega
    rw [hl]
    rfl

theorem canonEs_nil : canonEs [] = [] := rfl

theorem canonEs_cons (k : String) (v : Value) (r : Entries) :
    canonEs ((k, v) :: r) = (k, canonV v) :: canonEs r := rfl

theorem canonV_map (m : Entries) : canonV (.map m) = .map (canonEntries m) := rfl

theorem secs_load {d : Nat} {secs : Entries} {g : List String} (hsb : SecBuilt d secs g) :
    ∀ (ext0 : List GroupState) (D0 : Entries) (st : List GroupState) (rest : List String) (n : Nat),
    st ≠ [] → topIndent st < ((4 * d : Nat) : Int) →
    (∀ f ∈ ext0, ((4 * d : Nat) : Int) ≤ f.indentation) →
    (∀ k ∈ keysE secs, keyMem (applyPending (squash none ext0) D0) k = false) →
    secs.Pairwise (fun a b => a.1 ≠ b.1) →
    ∃ ext D2,
      load_lines_go (g ++ rest) n (ext0 ++ setTop st D0) =
        load_lines_go rest (n + g.length) (ext ++ setTop st D2) ∧
      (∀ f ∈ ext, ((4 * d : Nat) : Int) ≤ f.indentation) ∧
      applyPending (squash none ext) D2 = applyPending (squash none ext0) D0 ++ canonEs secs := by
  induction hsb with
  | nil =>
    intro ext0 D0 st rest n hne hind hext hfresh hdist
    exact ⟨ext0, D0, by rw [List.nil_append, List.length_nil, Nat.add_zero], hext,
      by rw [canonEs_nil, List.append_nil]⟩
  | @cons k m sub g' rest' hk hks hco hrest ih =>
    intro ext0 D0 st rest n hne hind hext hfresh hdist
    -- the header line opens a fresh frame after folding ext0 into the top
    rw [List.cons_append, List.cons_append, load_go_cons, parse_section_line d k hk hks n]
    show (∃ ext D2, load_lines_go (sub ++ [""] ++ g' ++ rest) (n + 1)
        (loadStep (ext0 ++ setTop st D0) ⟨4 * d, some k, some ':', .absent⟩) =
        load_lines_go rest _ (ext ++ setTop st D2) ∧ _ ∧ _)
    rw [loadStep_section_ext ext0 hne hind hext D0 k]
    rw [List.append_assoc (sub ++ [""]) g' rest, List.append_assoc sub [""] (g' ++ rest),
      List.singleton_append]
    -- the child block fills the fresh frame with the canonical child dict
    have hco2 := hco (⟨((4 * d : Nat) : Int), k, []⟩ ::
        setTop st (applyPending (squash none ext0) D0)) ("" :: (g' ++ rest)) (n + 1)
      (by simp) (by
        show ((4 * d : Nat) : Int) < ((4 * (d + 1) : Nat) : Int)
        exact_mod_cast (by omega : 4 * d < 4 * (d + 1))) rfl
    obtain ⟨ext_c, D_c, hgo_c, hb_c, happ_c⟩ := hco2
    rw [hgo_c]
    -- the trailing blank line leaves the stack unchanged
    rw [load_go_cons, parse_blank_line]
    show (∃ ext D2, load_lines_go (g' ++ rest) (n + 1 + sub.length + 1)
        (loadStep _ ⟨0, none, none, .absent⟩) =
        load_lines_go rest _ (ext ++ setTop st D2) ∧ _ ∧ _)
    rw [loadStep_nameless]
    -- fold the closed child frame into the pending extension and recurse
    have hstack : ext_c ++ setTop (⟨((4 * d : Nat) : Int), k, []⟩ ::
        setTop st (applyPending (squash none ext0) D0)) D_c =
        (ext_c ++ [⟨((4 * d : Nat) : Int), k, D_c⟩]) ++
          setTop st (applyPending (squash none ext0) D0) := by
      rw [List.append_assoc]
      rfl
    rw [hstack]
    have hA : applyPending (squash none (ext_c ++ [⟨((4 * d : Nat) : Int), k, D_c⟩]))
        (applyPending (squash none ext0) D0) =
        applyPending (squash none ext0) D0 ++ [(k, Value.map (canonEntries m))] := by
      rw [squash_append, squash_cons]
      show applyPending (some (k, applyPending (squash none ext_c) D_c)) _ = _
      rw [happ_c]
      exact dinsert_not_mem _ (hfresh k (List.mem_map.mpr ⟨(k, Value.map m),
        List.mem_cons_self _ _, rfl⟩))
    have hext2 : ∀ f ∈ ext_c ++ [⟨((4 * d : Nat) : Int), k, D_c⟩],
        ((4 * d : Nat) : Int) ≤ (f : GroupState).indentation := by
      intro f hf
      rcases List.mem_append.mp hf with hf | hf
      · refine le_trans ?_ (hb_c f hf)
        exact_mod_cast (by omega : 4 * d ≤ 4 * (d + 1))
      · rw [List.mem_singleton.mp hf]
    have hfresh2 : ∀ k2 ∈ keysE rest',
        keyMem (applyPending (squash none (ext_c ++ [⟨((4 * d : Nat) : Int), k, D_c⟩]))
          (applyPending (squash none ext0) D0)) k2 = false := by
      intro k2 hk2
      rw [hA, keyMem_append]
      have h1 : keyMem (applyPending (squash none ext0) D0) k2 = false :=
        hfresh k2 (by
          simp only [keysE, List.map_cons]
          exact List.mem_cons_of_mem _ hk2)
      have hkne : k ≠ k2 := by
        rcases List.mem_map.mp hk2 with ⟨b, hb, hb1⟩
        rw [← hb1]
        exact (List.pairwise_cons.mp hdist).1 b hb
      have h2 : keyMem [(k, Value.map (canonEntries m))] k2 = false := by
        simp [keyMem, hkne]
      rw [h1, h2]
      rfl
    obtain ⟨ext, D2, hgo2, hb2, happ2⟩ := ih (ext_c ++ [⟨((4 * d : Nat) : Int), k, D_c⟩])
      (applyPending (squash none ext0) D0) st rest (n + 1 + sub.length + 1)
      hne hind hext2 hfresh2 (List.pairwise_cons.mp hdist).2
    refine ⟨ext, D2, ?_, hb2, ?_⟩
    · rw [hgo2]
      congr 1
      simp [List.length_append]
      omega
    · rw [happ2, hA, canonEs_cons, canonV_map, List.append_assoc, List.singleton_append]

theorem isMapB_canonV (v : Value) : (canonV v).isMapB = v.isMapB := by
  cases v <;> rfl

theorem insertEntry_cons (k1 : String) (v1 : Value) (k : String) (v : Value) (rest : Entries) :
    insertEntry (k, v) ((k1, v1) :: rest) =
      if strLt k1.data k.data then (k1, v1) :: insertEntry (k, v) rest
      else (k, v) :: (k1, v1) :: rest := rfl

theorem canonEs_insertEntry (k : String) (v : Value) : ∀ l : Entries,
    canonEs (insertEntry (k, v) l) = insertEntry (k, canonV v) (canonEs l) := by
  intro l
  induction l with
  | nil => rfl
  | cons f rest ih =>
    obtain ⟨k1, v1⟩ := f
    rw [insertEntry_cons, canonEs_cons, insertEntry_cons]
    by_cases h : strLt k1.data k.data
    · rw [if_pos h, if_pos h, canonEs_cons, ih]
    · rw [if_neg h, if_neg h, canonEs_cons, canonEs_cons]

theorem canonEs_sortEntries : ∀ l : Entries, canonEs (sortEntries l) = sortEntries (canonEs l) := by
  intro l
  induction l with
  | nil => rfl
  | cons e rest ih =>
    obtain ⟨k, v⟩ := e
    show canonEs (insertEntry (k, v) (sortEntries rest)) = _
    rw [canonEs_insertEntry, ih]
    rfl

theorem settingsOf_canonEs : ∀ es : Entries, settingsOf (canonEs es) = canonEs (settingsOf es) := by
  intro es
  induction es with
  | nil => rfl
  | cons e rest ih =>
    obtain ⟨k, v⟩ := e
    rw [canonEs_cons]
    unfold settingsOf at *
    rw [List.filter_cons, List.filter_cons]
    by_cases h : Value.isMapB v
    · rw [if_neg (by simp [isMapB_canonV, h]), if_neg (by simp [h]), ih]
    · rw [if_pos (by simp [isMapB_canonV, Bool.eq_false_iff.mpr h]),
        if_pos (by simp [Bool.eq_false_iff.mpr h]), ih, canonEs_cons]

theorem sectionsOf_canonEs : ∀ es : Entries, sectionsOf (canonEs es) = canonEs (sectionsOf es) := by
  intro es
  induction es with
  | nil => rfl
  | cons e rest ih =>
    obtain ⟨k, v⟩ := e
    rw [canonEs_cons]
    unfold sectionsOf at *
    rw [List.filter_cons, List.filter_cons]
    by_cases h : Value.isMapB v
    · rw [if_pos (by simp [isMapB_canonV, h]), if_pos (by simp [h]), ih, canonEs_cons]
    · rw [if_neg (by simp [isMapB_canonV, Bool.eq_false_iff.mpr h]),
        if_neg (by simp [Bool.eq_false_iff.mpr h]), ih]

theorem canonEs_settings_id : ∀ es : Entries, (∀ e ∈ es, e.2.isMapB = false) →
    canonEs es = es := by
  intro es
  induction es with
  | nil => intro _; rfl
  | cons e rest ih =>
    intro h
    obtain ⟨k, v⟩ := e
    rw [canonEs_cons, ih (fun x hx => h x (List.mem_cons_of_mem _ hx))]
    have hv : Value.isMapB v = false := h (k, v) (List.mem_cons_self _ _)
    cases v with
    | map m => simp [Value.isMapB] at hv
    | absent => rfl
    | str s => rfl
    | vlist l => rfl
    | other t => rfl

theorem canonEntries_split (es : Entries) :
    canonEntries es =
      settingsOf (sortEntries es) ++ canonEs (sectionsOf (sortEntries es)) := by
  show partitionSettings (sortEntries (canonEs es)) = _
  rw [← canonEs_sortEntries, partitionSettings_eq, settingsOf_canonEs, sectionsOf_canonEs]
  rw [canonEs_settings_id (settingsOf (sortEntries es)) (fun e he => by
    have := List.of_mem_filter he
    simpa using this)]

theorem buildGroup_load : ∀ (fuel : Nat) (es : Entries) (d : Nat),
    entriesSaveWF es = true → entriesDepth es < fuel →
    ∃ lines, buildGroupF fuel es d = .ok lines ∧
      ∀ (st : List GroupState) (rest : List String) (n : Nat),
        st ≠ [] → topIndent st < ((4 * d : Nat) : Int) → topData st = [] →
        ∃ ext D2,
          load_lines_go (lines ++ rest) n st =
            load_lines_go rest (n + lines.length) (ext ++ setTop st D2) ∧
          (∀ f ∈ ext, ((4 * d : Nat) : Int) ≤ f.indentation) ∧
          applyPending (squash none ext) D2 = canonEntries es := by
  intro fuel
  induction fuel with
  | zero => intro es d _ hd; exact absurd hd (Nat.not_lt_zero _)
  | succ fuel ih =>
    intro es d hwf hd
    have hwfmem := entriesSaveWF_mem hwf
    have hdist := entriesSaveWF_pairwise hwf
    have hmem' : ∀ e ∈ sortEntries es, e.1 ≠ "" ∧ spacesEscapable e.1 = true ∧
        Value.saveWF e.2 = true :=
      fun e he => hwfmem e (mem_sortEntries he)
    have hdist' : (sortEntries es).Pairwise (fun a b => a.1 ≠ b.1) :=
      (List.Perm.pairwise_iff (fun h hc => h hc.symm) (sortEntries_perm es)).mpr hdist
    have hch : ∀ k m, (k, Value.map m) ∈ sortEntries es →
        ∃ sub, buildGroupF fuel m (d + 1) = .ok sub ∧ ChildOk d sub m := by
      intro k m hkm
      have hmm := mem_sortEntries hkm
      have h1 : entriesSaveWF m = true := entriesSaveWF_map (hwfmem _ hmm).2.2
      have h2 : entriesDepth m < fuel := by
        have h3 := depth_le_of_mem es k (Value.map m) hmm
        have h4 : Value.depth (Value.map m) = 1 + entriesDepth m := rfl
        omega
      obtain ⟨sub, hsub, hload⟩ := ih m (d + 1) h1 h2
      exact ⟨sub, hsub, hload⟩
    obtain ⟨s, g, hbe, hs, hsec⟩ := build_split fuel d (sortEntries es) hmem' hch
    refine ⟨s ++ g, by rw [buildGroupF_succ, hbe], ?_⟩
    intro st rest n hne hind htop
    have hprops : ∀ e ∈ settingsOf (sortEntries es),
        e.1 ≠ "" ∧ spacesEscapable e.1 = true ∧ Value.saveWF e.2 = true ∧
        e.2.isMapB = false := by
      intro e he
      obtain ⟨h1, h2, h3⟩ := hmem' e (List.mem_of_mem_filter he)
      refine ⟨h1, h2, h3, ?_⟩
      have := List.of_mem_filter he
      simpa using this
    have hfresh1 : ∀ k ∈ keysE (settingsOf (sortEntries es)), keyMem (topData st) k = false := by
      intro k _
      rw [htop]
      rfl
    have hdistS : (settingsOf (sortEntries es)).Pairwise (fun a b => a.1 ≠ b.1) :=
      pairwise_filter _ hdist'
    have hph1 := load_go_settings d (settingsOf (sortEntries es)) st (g ++ rest) n
      hne hind hprops hfresh1 hdistS
    rw [htop, List.nil_append] at hph1
    have hfresh2 : ∀ k ∈ keysE (sectionsOf (sortEntries es)),
        keyMem (applyPending (squash none ([] : List GroupState)) (settingsOf (sortEntries es)))
          k = false := by
      intro k hk
      exact sections_not_in_settings hdist' k hk
    obtain ⟨ext, D2, hgo2, hb2, happ2⟩ := secs_load hsec [] (settingsOf (sortEntries es))
      st rest (n + (settingsOf (sortEntries es)).length) hne hind
      (by intro f hf; cases hf) hfresh2 (pairwise_filter _ hdist')
    refine ⟨ext, D2, ?_, hb2, ?_⟩
    · rw [List.append_assoc, hs, hph1, List.nil_append] at *
      rw [hgo2]
      congr 1
      simp [List.length_append]
      omega
    · rw [happ2, canonEntries_split]
      rfl

theorem partitionSettings_perm : ∀ l : Entries, (partitionSettings l).Perm l := by
  intro l
  rw [partitionSettings_eq]
  have h := List.filter_append_perm (fun e : String × Value => !e.2.isMapB) l
  refine List.Perm.trans ?_ h
  refine List.Perm.append (List.Perm.refl _) ?_
  have heq : l.filter (fun e : String × Value => !!e.2.isMapB) = l.filter (fun e => e.2.isMapB) := by
    apply List.filter_congr
    intro x _
    simp
  rw [show sectionsOf l = l.filter (fun e => e.2.isMapB) from rfl, ← heq]

theorem canonEntries_perm (m : Entries) : (canonEntries m).Perm (canonEs m) := by
  show (partitionSettings (sortEntries (canonEs m))).Perm (canonEs m)
  exact List.Perm.trans (partitionSettings_perm _) (sortEntries_perm _)

theorem keysE_canonEs : ∀ m : Entries, keysE (canonEs m) = keysE m := by
  intro m
  induction m with
  | nil => rfl
  | cons e rest ih =>
    obtain ⟨k, v⟩ := e
    rw [canonEs_cons]
    simp only [keysE, List.map_cons] at *
    rw [ih]

theorem lookupE_canonEs : ∀ (m : Entries) (k : String),
    lookupE (canonEs m) k = Option.map canonV (lookupE m k) := by
  intro m k
  induction m with
  | nil => rfl
  | cons e rest ih =>
    obtain ⟨k1, v1⟩ := e
    rw [canonEs_cons]
    unfold lookupE
    by_cases h : k1 = k
    · rw [if_pos h, if_pos h]
      rfl
    · rw [if_neg h, if_neg h, ih]

theorem lookupE_none_iff : ∀ (l : Entries) (k : String), lookupE l k = none ↔ k ∉ keysE l := by
  intro l k
  induction l with
  | nil => simp [lookupE, keysE]
  | cons e rest ih =>
    obtain ⟨k1, v1⟩ := e
    unfold lookupE
    by_cases h : k1 = k
    · subst h
      simp [keysE]
    · rw [if_neg h]
      simp only [keysE, List.map_cons, List.mem_cons]
      rw [ih]
      constructor
      · intro h1 hc
        rcases hc with hc | hc
        · exact h hc.symm
        · exact h1 hc
      · intro h1 hc
        exact h1 (Or.inr hc)

theorem lookupE_some_mem : ∀ {l : Entries} {k : String} {v : Value},
    lookupE l k = some v → (k, v) ∈ l := by
  intro l
  induction l with
  | nil => intro k v h; cases h
  | cons e rest ih =>
    intro k v h
    obtain ⟨k1, v1⟩ := e
    unfold lookupE at h
    by_cases hk : k1 = k
    · rw [if_pos hk] at h
      subst hk
      rw [Option.some_inj] at h
      subst h
      exact List.mem_cons_self _ _
    · rw [if_neg hk] at h
      exact List.mem_cons_of_mem _ (ih h)

theorem mem_lookupE : ∀ {l : Entries} {k : String} {v : Value},
    l.Pairwise (fun a b => a.1 ≠ b.1) → (k, v) ∈ l → lookupE l k = some v := by
  intro l
  induction l with
  | nil => intro k v _ h; cases h
  | cons e rest ih =>
    intro k v hp h
    obtain ⟨k1, v1⟩ := e
    unfold lookupE
    rcases List.mem_cons.mp h with h | h
    · rw [Prod.mk.injEq] at h
      obtain ⟨h1, h2⟩ := h
      subst h1
      subst h2
      rw [if_pos rfl]
    · by_cases hk : k1 = k
      · exfalso
        have := (List.pairwise_cons.mp hp).1 (k, v) h
        simp only at this
        exact this hk
      · rw [if_neg hk]
        exact ih (List.pairwise_cons.mp hp).2 h

theorem lookupE_perm {l1 l2 : Entries} (hperm : l1.Perm l2)
    (hp : l1.Pairwise (fun a b => a.1 ≠ b.1)) (k : String) :
    lookupE l1 k = lookupE l2 k := by
  have hp2 : l2.Pairwise (fun a b => a.1 ≠ b.1) :=
    (List.Perm.pairwise_iff (fun h hc => h hc.symm) hperm).mp hp
  cases h1 : lookupE l1 k with
  | some v => exact (mem_lookupE hp2 (hperm.mem_iff.mp (lookupE_some_mem h1))).symm
  | none =>
    cases h2 : lookupE l2 k with
    | none => rfl
    | some v =>
      exfalso
      have := lookupE_some_mem h2
      have h3 := (lookupE_none_iff l1 k).mp h1
      exact h3 (by
        rcases List.mem_map.mp (List.mem_map.mpr ⟨(k, v), hperm.mem_iff.mpr this, rfl⟩)
          with ⟨b, hb, hb1⟩
        exact List.mem_map.mpr ⟨b, hb, hb1⟩)

theorem pairwise_canonEs {m : Entries} (h : m.Pairwise (fun a b => a.1 ≠ b.1)) :
    (canonEs m).Pairwise (fun a b => a.1 ≠ b.1) := by
  induction m with
  | nil => exact List.Pairwise.nil
  | cons e rest ih =>
    obtain ⟨k, v⟩ := e
    rw [canonEs_cons]
    rcases List.pairwise_cons.mp h with ⟨hhead, htail⟩
    refine List.Pairwise.cons ?_ (ih htail)
    intro b hb
    have hkeys : b.1 ∈ keysE (canonEs rest) := List.mem_map.mpr ⟨b, hb, rfl⟩
    rw [keysE_canonEs] at hkeys
    rcases List.mem_map.mp hkeys with ⟨c, hc, hc1⟩
    have := hhead c hc
    simp only at this ⊢
    rw [← hc1]
    exact this

theorem sizeOf_lookup {m : Entries} {k : String} {v : Value}
    (h : lookupE m k = some v) : sizeOf v < sizeOf (Value.map m) := by
  have hmem := lookupE_some_mem h
  have h1 := List.sizeOf_lt_of_mem hmem
  have h2 : sizeOf (k, v) = 1 + sizeOf k + sizeOf v := rfl
  rw [Value.map.sizeOf_spec]
  omega

theorem VPerm_canonV : ∀ (v : Value), Value.saveWF v = true → VPerm (canonV v) v
  | .absent, _ => VPerm.absent
  | .str s, _ => VPerm.str s
  | .vlist l, _ => VPerm.vlist l
  | .other t, h => absurd h (by simp [Value.saveWF])
  | .map m, h => by
    have hm : entriesSaveWF m = true := h
    have hpm := entriesSaveWF_pairwise hm
    rw [canonV_map]
    refine VPerm.map _ _ ?_ ?_
    · intro k
      have hperm : (keysE (canonEntries m)).Perm (keysE m) := by
        have h0 := (canonEntries_perm m).map (fun e : String × Value => e.1)
        rwa [show List.map (fun e : String × Value => e.1) (canonEs m) =
            keysE (canonEs m) from rfl,
          show List.map (fun e : String × Value => e.1) (canonEntries m) =
            keysE (canonEntries m) from rfl,
          keysE_canonEs] at h0
      exact hperm.mem_iff
    · intro k v1 v2 h1 h2
      have e1 : lookupE (canonEs m) k = lookupE (canonEntries m) k :=
        lookupE_perm (canonEntries_perm m).symm (pairwise_canonEs hpm) k
      have e2 : lookupE (canonEs m) k = some (canonV v2) := by
        rw [lookupE_canonEs, h2]
        rfl
      rw [← e1, e2] at h1
      have hv1 : v1 = canonV v2 := (Option.some_inj.mp h1).symm
      subst hv1
      have hwf2 : Value.saveWF v2 = true := (entriesSaveWF_mem hm _ (lookupE_some_mem h2)).2.2
      exact VPerm_canonV v2 hwf2
termination_by v _ => sizeOf v
decreasing_by
  exact sizeOf_lookup h2

theorem collapse_single (p : Option (String × Entries)) (f : GroupState) :
    collapse p [f] = applyPending p f.data := rfl

/-- C1 (amended): serializing a configuration tree whose keys are nonempty
control-free strings, whose values are built from the four supported kinds
with no empty list, and whose keys and string values carry whitespace only
from the escaped class (the six ASCII whitespace characters; any other
unicode whitespace such as U+00A0 is left unquoted by escape yet splits
the token on load), and reading it back yields a dict equal to the
original up to the order of keys inside each nested dict. -/
theorem save_load_round_trip (t : Entries) (h : entriesSaveWF t = true) :
    ∃ m, save_then_load t = .ok m ∧ VPerm (.map m) (.map t) := by
  obtain ⟨lines, hbuild, hload⟩ := buildGroup_load (entriesDepth t + 1) t 0 h (by omega)
  obtain ⟨ext, D2, hgo, hext, happ⟩ := hload [⟨-1, "", []⟩] [] 1 (by simp)
    (by show (-1 : Int) < ((4 * 0 : Nat) : Int); decide) rfl
  have hstl : save_then_load t = load (.success lines) := by
    unfold save_then_load
    rw [show _build_group t 0 = buildGroupF (entriesDepth t + 1) t 0 from rfl, hbuild]
  refine ⟨canonEntries t, ?_, ?_⟩
  · rw [hstl]
    have hl2 : load_lines lines = .ok (canonEntries t) := by
      unfold load_lines
      rw [List.append_nil] at hgo
      rw [hgo]
      show Except.ok (collapse none (ext ++ setTop [⟨-1, "", []⟩] D2)) = _
      rw [show setTop [(⟨-1, "", []⟩ : GroupState)] D2 = [⟨-1, "", D2⟩] from rfl]
      rw [collapse_append ext _ none (by simp), collapse_single, happ]
    show (match load_lines lines with
      | Except.error e => Except.error (LoadError.wrapped (ConfigurationBackendError.parser e))
      | Except.ok m => (Except.ok m : Except LoadError Entries)) = _
    rw [hl2]
  · have hv := VPerm_canonV (.map t) h
    rwa [canonV_map] at hv

/-- Witness for the amended round trip at a concrete tree with a scalar, a
list and a nested section. -/
theorem save_load_round_trip_witness :
    entriesSaveWF [("b", Value.str "1"), ("a", Value.map [("c", Value.vlist ["x", "y"])])] = true ∧
    ∃ m, save_then_load [("b", Value.str "1"),
        ("a", Value.map [("c", Value.vlist ["x", "y"])])] = .ok m ∧
      VPerm (.map m) (.map [("b", Value.str "1"),
        ("a", Value.map [("c", Value.vlist ["x", "y"])])]) :=
  ⟨by decide, save_load_round_trip _ (by decide)⟩
